import Mathlib

/-!
Poisson solver on a graph (poisson.cpp).

A shallow embedding of the boundary classifier `g_boundary`, the forcing
function `f`, the right-hand side `b` and the matrix-free operator
`GraphSymmetricMatrix` (`L`, `A`, `mult`) of poisson.cpp.

Scalars (`double`) are modelled by exact rationals.  Nodes are modelled by
their zero-based index in the graph they belong to.  The definitions come
first, the theorems after them.
-/

namespace Poisson

/-! ## Collaborators: points, boxes, library functions, the graph -/

/-- Modelled from the spec: `CME212/Point.hpp` is not among the sources; a
`Point` is a 3D position with coordinates `x`, `y`, `z`. -/
structure Point where
  x : ℚ
  y : ℚ
  z : ℚ
deriving DecidableEq

/-- Modelled from the spec: componentwise difference `p - q` of two points. -/
def Point.sub (p q : Point) : Point :=
  ⟨p.x - q.x, p.y - q.y, p.z - q.z⟩

/-- Modelled from the spec: the infinity norm, the maximum absolute
coordinate of `p`. -/
def norm_inf (p : Point) : ℚ :=
  max (max |p.x| |p.y|) |p.z|

/-- Modelled from the spec: the 1-norm, the sum of the absolute coordinates
of `p`. -/
def norm_1 (p : Point) : ℚ :=
  |p.x| + |p.y| + |p.z|

/-- Modelled from the spec: the squared Euclidean norm of `p`. -/
def normSq (p : Point) : ℚ :=
  p.x * p.x + p.y * p.y + p.z * p.z

/-- Modelled from the spec: `CME212/BoundingBox.hpp` is not among the
sources; a `Box3D` is an axis-aligned region given by its two corners. -/
structure Box3D where
  lo : Point
  hi : Point

/-- Modelled from the spec: `bb.contains(p)`, membership of `p` in the closed
axis-aligned region between the two corners. -/
def Box3D.contains (bb : Box3D) (p : Point) : Bool :=
  decide (bb.lo.x ≤ p.x ∧ p.x ≤ bb.hi.x ∧ bb.lo.y ≤ p.y ∧ p.y ≤ bb.hi.y ∧
    bb.lo.z ≤ p.z ∧ p.z ≤ bb.hi.z)

/-- The two `<math.h>` functions the program calls, as functions on scalars.
They are parameters of the embedding: nothing is assumed about them. -/
structure Libm where
  cos : ℚ → ℚ
  sqrt : ℚ → ℚ

/-- Modelled from the spec: the Euclidean norm `norm(p)`, the square root of
the squared norm. -/
def norm (m : Libm) (p : Point) : ℚ :=
  m.sqrt (normSq p)

/-- Modelled from the spec: `Graph.hpp` is not among the sources.  The graph
is an undirected graph of 3D points: node `i` (zero-based index) has position
`points[i]`, and `edges` is the edge enumeration, edge `k` being the unordered
pair `edges[k]` of node indices. -/
structure Graph where
  points : List Point
  edges : List (Nat × Nat)

/-- Modelled from the spec: `g.num_nodes()`, the node count. -/
def Graph.num_nodes (g : Graph) : Nat :=
  g.points.length

/-- Modelled from the spec: `n.position()` for the node of index `n`
(the origin for an index that is not a node of the graph). -/
def Graph.position (g : Graph) (n : Nat) : Point :=
  g.points.getD n ⟨0, 0, 0⟩

/-- Modelled from the spec: the incident-edge iteration of node `i`
(`i.edge_begin()` to `i.edge_end()`), given by the other endpoint `node2()`
of each edge incident to `i`, in edge-enumeration order. -/
def Graph.incident (g : Graph) (i : Nat) : List Nat :=
  g.edges.filterMap fun e =>
    if e.1 = i then some e.2 else if e.2 = i then some e.1 else none

/-- Modelled from the spec: `i.degree()`, the count of edges incident to
`i`. -/
def Graph.degree (g : Graph) (i : Nat) : Nat :=
  (g.incident i).length

/-- Modelled from the spec: `g.has_edge(i, j)`, the adjacency test on the
unordered pair `i`, `j`. -/
def Graph.has_edge (g : Graph) (i j : Nat) : Bool :=
  g.edges.any fun e => decide ((e.1 = i ∧ e.2 = j) ∨ (e.1 = j ∧ e.2 = i))

/-- Modelled from the spec: `g.edge(k).length()`, the Euclidean distance
between the endpoint positions of edge `k`; there is no such edge when
`k` is not below the edge count. -/
def Graph.edge_length (m : Libm) (g : Graph) (k : Nat) : Option ℚ :=
  (g.edges.get? k).map fun e => norm m ((g.position e.1).sub (g.position e.2))

/-- Well-formed graphs: every edge joins two nodes of the graph. -/
def Graph.wf (g : Graph) : Prop :=
  ∀ e ∈ g.edges, e.1 < g.num_nodes ∧ e.2 < g.num_nodes

/-! ## Boundary conditions, forcing function, right-hand side -/

/-- The source box of `g_boundary`,
`Box3D(Point(-0.6,-0.2,-1), Point(0.6,0.2,1))`. -/
def thisbox : Box3D :=
  ⟨⟨-(3/5), -(1/5), -1⟩, ⟨3/5, 1/5, 1⟩⟩

/-- The function `g_boundary(n)`: the boundary condition at node `n`; `-1`
means that the node is not on a boundary. -/
def g_boundary (g : Graph) (n : Nat) : ℚ :=
  if norm_inf (g.position n) = 1 then
    0
  else if norm_inf ((g.position n).sub ⟨3/5, 3/5, 0⟩) < 1/5 ∨
      norm_inf ((g.position n).sub ⟨-(3/5), 3/5, 0⟩) < 1/5 ∨
      norm_inf ((g.position n).sub ⟨3/5, -(3/5), 0⟩) < 1/5 ∨
      norm_inf ((g.position n).sub ⟨-(3/5), -(3/5), 0⟩) < 1/5 then
    -(1/5)
  else if thisbox.contains (g.position n) then
    1
  else
    -1

/-- The function `f(n)`: the forcing function,
`5.0*cos(norm_1(n.position()))`. -/
def f (m : Libm) (g : Graph) (n : Nat) : ℚ :=
  5 * m.cos (norm_1 (g.position n))

/-- The loop of `b` over the incident edges of `i`: `sum += g_boundary(j)`
for each neighbour `j` whose boundary value is not `-1`. -/
def b_sum (g : Graph) : List Nat → ℚ → ℚ
  | [], sum => sum
  | j :: js, sum =>
    if g_boundary g j ≠ -1 then b_sum g js (sum + g_boundary g j)
    else b_sum g js sum

/-- The function `b(i, graph)`: the right-hand side of the system `Ax = b`.
The result is `none` when `graph.edge(0)` is evaluated on a graph without
edges. -/
def b (m : Libm) (g : Graph) (i : Nat) : Option ℚ :=
  if g_boundary g i ≠ -1 then
    some (g_boundary g i)
  else
    (g.edge_length m 0).map fun h => h ^ 2 * f m g i + b_sum g (g.incident i) 0

/-! ## The operator `GraphSymmetricMatrix` -/

/-- The method `get_dim()`: the dimension of the operator, `g_.num_nodes()`. -/
def get_dim (g : Graph) : Nat :=
  g.num_nodes

/-- The value of `-i.degree()`: `degree()` returns the unsigned `size_type`
of the graph, of `bits` bits, so the negation is taken modulo `2^bits`
before the conversion to `double`. -/
def neg_degree (bits : Nat) (g : Graph) (i : Nat) : ℚ :=
  (((2 ^ bits - g.degree i % 2 ^ bits) % 2 ^ bits : Nat) : ℚ)

/-- The method `L(i,j)`: the discrete matrix approximating the Laplace
operator. -/
def L (bits : Nat) (g : Graph) (i j : Nat) : ℚ :=
  if i = j then
    neg_degree bits g i
  else if g.has_edge i j || g.has_edge j i then
    1
  else
    0

/-- The method `A(i,j)`: the matrix of the linear system of equations. -/
def A (bits : Nat) (g : Graph) (i j : Nat) : ℚ :=
  if i = j ∧ g_boundary g i ≠ -1 then
    1
  else if i ≠ j ∧ (g_boundary g i ≠ -1 ∨ g_boundary g j ≠ -1) then
    0
  else
    L bits g i j

/-- The assignment functor passed to `mult`: `w = ...`, `w += ...` or
`w -= ...`. -/
inductive Assign where
  | assign_sum
  | plus_sum
  | minus_sum
deriving DecidableEq

/-- The call `Assign::apply(a, b)`: the new value of `a`. -/
def Assign.apply : Assign → ℚ → ℚ → ℚ
  | .assign_sum, _, t => t
  | .plus_sum, a, t => a + t
  | .minus_sum, a, t => a - t

/-- The ways a call of `mult` can fail: the assertion `size(v) == size(w)`,
or an access to a vector entry that does not exist. -/
inductive MultError where
  | size_mismatch
  | out_of_range
deriving DecidableEq

/-- The inner loop of `mult` over the incident edges of node `i`:
`temp += A(i,j)*v[j.index()]`. -/
def mult_row (bits : Nat) (g : Graph) (v : List ℚ) (i : Nat) :
    List Nat → ℚ → Except MultError ℚ
  | [], temp => .ok temp
  | j :: js, temp =>
    match v.get? j with
    | none => .error .out_of_range
    | some vj => mult_row bits g v i js (temp + A bits g i j * vj)

/-- The outer loop of `mult` over the nodes: the inner loop, then
`Assign::apply(w[i.index()], temp)`.  The accumulator `temp` is carried from
one node to the next. -/
def mult_nodes (bits : Nat) (g : Graph) (v : List ℚ) (asg : Assign) :
    List Nat → ℚ → List ℚ → Except MultError (List ℚ)
  | [], _, w => .ok w
  | i :: is, temp, w =>
    match mult_row bits g v i (g.incident i) temp with
    | .error e => .error e
    | .ok temp1 =>
      match w.get? i with
      | none => .error .out_of_range
      | some wi => mult_nodes bits g v asg is temp1 (w.set i (asg.apply wi temp1))

/-- The method `mult(v, w, Assign)`: the final contents of `w`. -/
def mult (bits : Nat) (g : Graph) (v w : List ℚ) (asg : Assign) :
    Except MultError (List ℚ) :=
  if v.length ≠ w.length then .error .size_mismatch
  else mult_nodes bits g v asg (List.range g.num_nodes) 0 w

/-- The function `size(M)`, `get_dim()*get_dim()`. -/
def size (g : Graph) : Nat :=
  get_dim g * get_dim g

/-- The function `num_rows(M)`. -/
def num_rows (g : Graph) : Nat :=
  get_dim g

/-- The function `num_cols(M)`. -/
def num_cols (g : Graph) : Nat :=
  get_dim g

/-! ## Specification-side predicates for the boundary classifier -/

/-- Rule 1 of the boundary classifier in the spec's words: `p` lies on the
outer boundary, its infinity norm equals 1. -/
def on_outer_boundary (p : Point) : Prop :=
  norm_inf p = 1

/-- Rule 2 in the spec's words: `p` is at infinity-norm distance below `0.2`
from one of the four hole centres. -/
def near_hole_centre (p : Point) : Prop :=
  ∃ c ∈ ([⟨3/5, 3/5, 0⟩, ⟨-(3/5), 3/5, 0⟩, ⟨3/5, -(3/5), 0⟩,
      ⟨-(3/5), -(3/5), 0⟩] : List Point),
    norm_inf (p.sub c) < 1/5

/-- Rule 3 in the spec's words: `p` lies in the source box
`[(-0.6,-0.2,-1), (0.6,0.2,1)]`. -/
def in_source_box (p : Point) : Prop :=
  -(3/5) ≤ p.x ∧ p.x ≤ 3/5 ∧ -(1/5) ≤ p.y ∧ p.y ≤ 1/5 ∧ -1 ≤ p.z ∧ p.z ≤ 1

/-! ## Specification-side sums -/

/-- The sum accumulated by the inner loop of `mult` at node `i`: over the edges
incident to `i`, with other endpoint `j`, of `A(i,j)*v[j]`. -/
def edge_sum (bits : Nat) (g : Graph) (v : List ℚ) (i : Nat) : ℚ :=
  ((g.incident i).map fun j => A bits g i j * v.getD j 0).sum

/-- The total of `edge_sum` over the first `k` nodes in node-iteration
order. -/
def running_sum (bits : Nat) (g : Graph) (v : List ℚ) (k : Nat) : ℚ :=
  ((List.range k).map (edge_sum bits g v)).sum

/-- The linear combination `a*x + c*y` of two vectors, entry by entry. -/
def lin_comb (a c : ℚ) (x y : List ℚ) : List ℚ :=
  List.zipWith (fun p q => a * p + c * q) x y

/-- Row `i` of the product of the matrix `M` with the vector `u`: the sum over
all nodes `j` of the graph of `M(i,j)*u[j]`. -/
def row_dot (M : Nat → Nat → ℚ) (g : Graph) (u : List ℚ) (i : Nat) : ℚ :=
  ((List.range g.num_nodes).map fun j => M i j * u.getD j 0).sum

/-- The discrete Poisson equation with the Dirichlet data, in the spec's
words: `u[j] = g_boundary(j)` at every boundary-constrained node `j`, and at
every unconstrained node `i` the sum over all nodes `j` of `L(i,j)*u[j]` is
`h^2 * f(i)`, with `h` the length of edge 0. -/
def solves_poisson (m : Libm) (bits : Nat) (g : Graph) (u : List ℚ) : Prop :=
  (∀ j, j < g.num_nodes → g_boundary g j ≠ -1 → u.getD j 0 = g_boundary g j) ∧
  ∃ h, g.edge_length m 0 = some h ∧
    ∀ i, i < g.num_nodes → g_boundary g i = -1 →
      row_dot (L bits g) g u i = h ^ 2 * f m g i

/-- The assembled system `A u = b`, row by row: for every node `i`, the sum
over all nodes `j` of `A(i,j)*u[j]` is `b(i, graph)`. -/
def solves_system (m : Libm) (bits : Nat) (g : Graph) (u : List ℚ) : Prop :=
  ∀ i, i < g.num_nodes → b m g i = some (row_dot (A bits g) g u i)

/-! ## Sample inputs -/

/-- One node at the origin, inside the source box; no edge. -/
def mesh_single : Graph :=
  ⟨[⟨0, 0, 0⟩], []⟩

/-- Two unconstrained nodes joined by an edge. -/
def mesh_pair : Graph :=
  ⟨[⟨0, 3/10, 0⟩, ⟨1/10, 3/10, 0⟩], [(0, 1)]⟩

/-- Three unconstrained nodes on a path `0 - 1 - 2`. -/
def mesh_path : Graph :=
  ⟨[⟨0, 3/10, 0⟩, ⟨1/10, 3/10, 0⟩, ⟨1/5, 3/10, 0⟩], [(0, 1), (1, 2)]⟩

/-- An unconstrained node `0` joined to node `1` on the edge of the source
box, where the boundary value is `1`. -/
def mesh_source : Graph :=
  ⟨[⟨0, 3/10, 0⟩, ⟨0, 1/5, 0⟩], [(0, 1)]⟩

/-- Rational stand-ins for the library functions, used at concrete inputs:
`cos x` as `1 - x^2/2` and `sqrt x` as `(x + 1)/2`. -/
def libm_sample : Libm :=
  ⟨fun x => 1 - x ^ 2 / 2, fun x => (x + 1) / 2⟩

/-! ## Removing the nodes of a box, and the setup of `main` -/

/-- Modelled from the spec: `g.remove_node(n)` for the node of index `n`.  The
node and the edges incident to it are removed and the indices are
re-densified: the nodes after `n` move down by one position. -/
def Graph.remove_node (g : Graph) (n : Nat) : Graph :=
  ⟨g.points.eraseIdx n,
    (g.edges.filter fun e => decide (e.1 ≠ n ∧ e.2 ≠ n)).map fun e =>
      (if n < e.1 then e.1 - 1 else e.1, if n < e.2 then e.2 - 1 else e.2)⟩

/-- The loop of `remove_box`, the node iterator `it` being a position index
compared with `g.node_end()`, the current node count, at every turn:
`if (bb.contains(n.position())) g.remove_node(n);` then `++it`.  The result is
`none` when the iterator is dereferenced past the end, or when the fuel runs
out. -/
def remove_box_loop (bb : Box3D) : Nat → Nat → Graph → Option Graph
  | 0, _, _ => none
  | fuel + 1, it, g =>
    if it = g.num_nodes then some g
    else if g.num_nodes < it then none
    else if bb.contains (g.position it) then
      remove_box_loop bb fuel (it + 1) (g.remove_node it)
    else remove_box_loop bb fuel (it + 1) g

/-- The function `remove_box(g, bb)`: the graph left in `g`.  The iterator
visits at most the positions `0` to `g.num_nodes()`, so `g.num_nodes() + 1`
turns of the loop are enough. -/
def remove_box (g : Graph) (bb : Box3D) : Option Graph :=
  remove_box_loop bb (g.num_nodes + 1) 0 g

/-- Two nodes inside the source box, joined by an edge. -/
def mesh_inside : Graph :=
  ⟨[⟨0, 0, 0⟩, ⟨1/10, 0, 0⟩], [(0, 1)]⟩

/-! ## Quadratic forms -/

/-- The quadratic form of the matrix `M` on the nodes `0..n-1` at the vector
`x`: the sum over all nodes `i`, `j` of `x[i]*M(i,j)*x[j]`. -/
def quad_form (M : Nat → Nat → ℚ) (n : Nat) (x : List ℚ) : ℚ :=
  ((List.range n).map fun i =>
    ((List.range n).map fun j => x.getD i 0 * M i j * x.getD j 0).sum).sum

/-- The method `L(i,j)` with the value `nd i` of the expression `-i.degree()`
left open: it depends on the type that `degree()` returns, which is declared
in `Graph.hpp`. -/
def L_of (nd : Nat → ℚ) (g : Graph) (i j : Nat) : ℚ :=
  if i = j then
    nd i
  else if g.has_edge i j || g.has_edge j i then
    1
  else
    0

/-- The method `A(i,j)` over `L_of`. -/
def A_of (nd : Nat → ℚ) (g : Graph) (i j : Nat) : ℚ :=
  if i = j ∧ g_boundary g i ≠ -1 then
    1
  else if i ≠ j ∧ (g_boundary g i ≠ -1 ∨ g_boundary g j ≠ -1) then
    0
  else
    L_of nd g i j

/-- Adjacency of two distinct nodes: the graph has an edge between `i` and
`j`, in either orientation. -/
def Graph.adjacent (g : Graph) (i j : Nat) : Bool :=
  decide (i ≠ j) && (g.has_edge i j || g.has_edge j i)

/-- The number of nodes adjacent to `i`. -/
def Graph.adjacent_count (g : Graph) (i : Nat) : Nat :=
  ((List.range g.num_nodes).filter (g.adjacent i)).length

/-- The number `c(i)` of boundary-constrained neighbours of `i`. -/
def constrained_neighbours (g : Graph) (i : Nat) : Nat :=
  ((List.range g.num_nodes).filter fun j =>
    g.adjacent i j && decide (g_boundary g j ≠ -1)).length

/-- The sum over the edges `{i,j}` with both endpoints unconstrained, each
unordered pair taken once as `i < j`, of `(x[i] - x[j])^2`. -/
def interior_edge_energy (g : Graph) (x : List ℚ) : ℚ :=
  ((List.range g.num_nodes).map fun i =>
    ((List.range g.num_nodes).map fun j =>
      if i < j ∧ g.adjacent i j = true ∧ g_boundary g i = -1 ∧ g_boundary g j = -1 then
        (x.getD i 0 - x.getD j 0) ^ 2
      else 0).sum).sum

/-- The sum over the unconstrained nodes `i` of `c(i)*x[i]^2`. -/
def boundary_coupling (g : Graph) (x : List ℚ) : ℚ :=
  ((List.range g.num_nodes).map fun i =>
    if g_boundary g i = -1 then (constrained_neighbours g i : ℚ) * x.getD i 0 ^ 2
    else 0).sum

/-- The indicator of an edge between two unconstrained nodes `i`, `j`. -/
def interior_link (g : Graph) (i j : Nat) : ℚ :=
  if g.adjacent i j = true ∧ g_boundary g i = -1 ∧ g_boundary g j = -1 then 1 else 0

/-- The indicator of a boundary-constrained neighbour `j` of `i`. -/
def boundary_link (g : Graph) (i j : Nat) : ℚ :=
  if (g.adjacent i j && decide (g_boundary g j ≠ -1)) = true then 1 else 0

/-- Graphs without self-loops: no edge joins a node to itself. -/
def Graph.no_loops (g : Graph) : Prop :=
  ∀ e ∈ g.edges, e.1 ≠ e.2

/-- The indicator of adjacency of the nodes `i`, `j`. -/
def adjacency_link (g : Graph) (i j : Nat) : ℚ :=
  if g.adjacent i j = true then 1 else 0

/-- The entries of `x` at the unconstrained nodes that have an edge, `0`
elsewhere. -/
def active_part (g : Graph) (x : List ℚ) (i : Nat) : ℚ :=
  if g_boundary g i = -1 ∧ 0 < g.degree i then x.getD i 0 else 0

/-! ## The setup of `main` before the right-hand side -/

theorem near_hole_centre_iff (p : Point) :
    near_hole_centre p ↔
      (norm_inf (p.sub ⟨3/5, 3/5, 0⟩) < 1/5 ∨
        norm_inf (p.sub ⟨-(3/5), 3/5, 0⟩) < 1/5 ∨
        norm_inf (p.sub ⟨3/5, -(3/5), 0⟩) < 1/5 ∨
        norm_inf (p.sub ⟨-(3/5), -(3/5), 0⟩) < 1/5) := by
  simp [near_hole_centre]

theorem thisbox_contains_iff (p : Point) :
    thisbox.contains p = true ↔ in_source_box p := by
  simp [thisbox, Box3D.contains, in_source_box]

/-- C9: `g_boundary` is a total function of the node position `p` that returns
the value of the first matching rule in priority order: `0` on the outer
boundary; else `-0.2` near a hole centre; else `1` in the source box; else the
sentinel `-1`.  The position `(0,0,1)` matches rules 1 and 3 and gets `0`, and
the result is the sentinel exactly when no rule matches. -/
theorem g_boundary_first_match (g : Graph) (n : Nat) :
    (on_outer_boundary (g.position n) → g_boundary g n = 0) ∧
    (¬ on_outer_boundary (g.position n) → near_hole_centre (g.position n) →
      g_boundary g n = -(1/5)) ∧
    (¬ on_outer_boundary (g.position n) → ¬ near_hole_centre (g.position n) →
      in_source_box (g.position n) → g_boundary g n = 1) ∧
    (¬ on_outer_boundary (g.position n) → ¬ near_hole_centre (g.position n) →
      ¬ in_source_box (g.position n) → g_boundary g n = -1) ∧
    (g_boundary g n = -1 ↔
      ¬ on_outer_boundary (g.position n) ∧ ¬ near_hole_centre (g.position n) ∧
        ¬ in_source_box (g.position n)) ∧
    (g.position n = ⟨0, 0, 1⟩ →
      on_outer_boundary (g.position n) ∧ in_source_box (g.position n) ∧
        g_boundary g n = 0) := by
  have hbox := thisbox_contains_iff (g.position n)
  have hhole := near_hole_centre_iff (g.position n)
  refine ⟨?_, ?_, ?_, ?_, ?_, ?_⟩
  · intro h1
    simp only [on_outer_boundary] at h1
    simp [g_boundary, h1]
  · intro h1 h2
    simp only [on_outer_boundary] at h1
    rw [hhole] at h2
    simp only [g_boundary, if_neg h1, if_pos h2]
  · intro h1 h2 h3
    simp only [on_outer_boundary] at h1
    rw [hhole] at h2
    rw [← hbox] at h3
    simp only [g_boundary, if_neg h1, if_neg h2, if_pos h3]
  · intro h1 h2 h3
    simp only [on_outer_boundary] at h1
    rw [hhole] at h2
    rw [← hbox] at h3
    simp only [g_boundary, if_neg h1, if_neg h2, if_neg h3]
  · rw [hhole, ← hbox]
    simp only [on_outer_boundary, g_boundary]
    split_ifs with h1 h2 h3 <;> simp_all
    norm_num
  · intro hp
    have h1 : norm_inf (g.position n) = 1 := by
      rw [hp]; norm_num [norm_inf]
    refine ⟨h1, ?_, ?_⟩
    · rw [hp]; norm_num [in_source_box]
    · simp [g_boundary, h1]

/-- C9, at a concrete input: a node at `(0,0,1)` gets the value `0`. -/
theorem g_boundary_first_match_witness :
    g_boundary ⟨[⟨0, 0, 1⟩], []⟩ 0 = 0 :=
  ((g_boundary_first_match ⟨[⟨0, 0, 1⟩], []⟩ 0).2.2.2.2.2 (by simp [Graph.position])).2.2

/-! ## Entries of the operator -/

theorem has_edge_iff (g : Graph) (i j : Nat) :
    g.has_edge i j = true ↔ ((i, j) ∈ g.edges ∨ (j, i) ∈ g.edges) := by
  simp only [Graph.has_edge, List.any_eq_true, decide_eq_true_eq]
  constructor
  · rintro ⟨⟨a, c⟩, he, h⟩
    rcases h with ⟨h1, h2⟩ | ⟨h1, h2⟩
    · left; simp only at h1 h2; subst h1; subst h2; exact he
    · right; simp only at h1 h2; subst h1; subst h2; exact he
  · rintro (h | h)
    · exact ⟨(i, j), h, Or.inl ⟨rfl, rfl⟩⟩
    · exact ⟨(j, i), h, Or.inr ⟨rfl, rfl⟩⟩

/-- C2: the matrix entry is symmetric, `A(i,j) == A(j,i)`, for every graph and
every pair of nodes, equal or distinct, adjacent or not, boundary-constrained
or not. -/
theorem A_symmetric (bits : Nat) (g : Graph) (i j : Nat) :
    A bits g i j = A bits g j i := by
  by_cases hij : i = j
  · subst hij; rfl
  · have hji : ¬ j = i := fun h => hij h.symm
    have hb : (g.has_edge i j || g.has_edge j i) = (g.has_edge j i || g.has_edge i j) :=
      Bool.or_comm _ _
    have hc : (¬ g_boundary g i = -1 ∨ ¬ g_boundary g j = -1) ↔
        (¬ g_boundary g j = -1 ∨ ¬ g_boundary g i = -1) := or_comm
    simp only [A, L, hij, hji, false_and, if_false, ne_eq, not_false_eq_true, true_and, hb, hc]

/-- C4: boundary rows and columns of `A` are those of the identity: for a
boundary-constrained node `i`, `A(i,i) = 1`, and for every other node `j`,
adjacent or not, `A(i,j) = 0` and `A(j,i) = 0`. -/
theorem A_boundary_identity (bits : Nat) (g : Graph) (i : Nat)
    (hi : g_boundary g i ≠ -1) :
    A bits g i i = 1 ∧ ∀ j, i ≠ j → A bits g i j = 0 ∧ A bits g j i = 0 := by
  refine ⟨by simp [A, hi], ?_⟩
  intro j hij
  have hji : ¬ j = i := fun h => hij h.symm
  constructor
  · simp [A, hij, hi]
  · simp [A, hji, hi]

/-- C6: for distinct nodes `i`, `j` that are both not boundary-constrained,
`A(i,j)` is `1` when the graph has an edge between `i` and `j`, in either
orientation, and `0` otherwise. -/
theorem A_interior_offdiag (bits : Nat) (g : Graph) (i j : Nat) (hij : i ≠ j)
    (hi : g_boundary g i = -1) (hj : g_boundary g j = -1) :
    ((i, j) ∈ g.edges ∨ (j, i) ∈ g.edges → A bits g i j = 1) ∧
    (¬ ((i, j) ∈ g.edges ∨ (j, i) ∈ g.edges) → A bits g i j = 0) := by
  have hA : A bits g i j = if g.has_edge i j = true then 1 else 0 := by
    by_cases h : g.has_edge i j = true
    · simp [A, L, hij, hi, hj, h]
    · have h2 : g.has_edge j i = false := by
        cases hh : g.has_edge j i
        · rfl
        · exact absurd ((has_edge_iff g i j).2 (((has_edge_iff g j i).1 hh).symm)) h
      simp [A, L, hij, hi, hj, h, h2]
  rw [hA, ← has_edge_iff]
  constructor
  · intro h; simp [h]
  · intro h; simp [h]

/-! ## The right-hand side -/

theorem b_sum_eq (g : Graph) (js : List Nat) (sum : ℚ) :
    b_sum g js sum =
      sum + ((js.filter fun j => decide (g_boundary g j ≠ -1)).map (g_boundary g)).sum := by
  induction js generalizing sum with
  | nil => simp [b_sum]
  | cons j js ih =>
    by_cases hj : g_boundary g j = -1
    · simp [b_sum, hj, ih]
    · simp [b_sum, hj, ih, add_assoc]

theorem g_boundary_values (g : Graph) (n : Nat) :
    g_boundary g n = 0 ∨ g_boundary g n = -(1/5) ∨ g_boundary g n = 1 ∨
      g_boundary g n = -1 := by
  unfold g_boundary
  split_ifs <;> simp

/-- C7: for a boundary-constrained node `i`, the right-hand-side entry is
exactly the fixed value `g_boundary(i)`, one of `0`, `-0.2`, `1`; it is the same
in every graph that places node `i` at the same position, whatever the edges
and neighbours. -/
theorem b_boundary (m : Libm) (g : Graph) (i : Nat) (hi : g_boundary g i ≠ -1) :
    b m g i = some (g_boundary g i) ∧
    (g_boundary g i = 0 ∨ g_boundary g i = -(1/5) ∨ g_boundary g i = 1) ∧
    ∀ g2 : Graph, g2.position i = g.position i → b m g2 i = some (g_boundary g i) := by
  refine ⟨by simp [b, hi], ?_, ?_⟩
  · rcases g_boundary_values g i with h | h | h | h
    · exact Or.inl h
    · exact Or.inr (Or.inl h)
    · exact Or.inr (Or.inr h)
    · exact absurd h hi
  · intro g2 hp
    have hg : g_boundary g2 i = g_boundary g i := by
      simp only [g_boundary, hp]
    simp [b, hg, hi]

/-- C8: on a graph with at least one edge, for an unconstrained node `i`,
`b(i, graph) = h^2 * f(i) + (sum of g_boundary(j) over the boundary-constrained
neighbours j of i)`, with `h` the length of edge number 0 and
`f(i) = 5*cos(norm_1 of the position of i)`; unconstrained neighbours contribute
nothing. -/
theorem b_interior (m : Libm) (g : Graph) (i : Nat) (hE : 0 < g.edges.length)
    (hi : g_boundary g i = -1) :
    ∃ h, g.edge_length m 0 = some h ∧
      f m g i = 5 * m.cos (norm_1 (g.position i)) ∧
      b m g i = some (h ^ 2 * f m g i +
        (((g.incident i).filter fun j => decide (g_boundary g j ≠ -1)).map
          (g_boundary g)).sum) := by
  obtain ⟨e, es, hes⟩ : ∃ e es, g.edges = e :: es := by
    cases hg : g.edges with
    | nil => simp [hg] at hE
    | cons e es => exact ⟨e, es, rfl⟩
  refine ⟨norm m ((g.position e.1).sub (g.position e.2)), ?_, rfl, ?_⟩
  · simp [Graph.edge_length, hes]
  · simp [b, hi, Graph.edge_length, hes, b_sum_eq]

/-! ## The vector computed by `mult` -/

theorem incident_lt (g : Graph) (hwf : g.wf) (i j : Nat) (hj : j ∈ g.incident i) :
    j < g.num_nodes := by
  simp only [Graph.incident, List.mem_filterMap] at hj
  obtain ⟨e, he, h⟩ := hj
  have hb := hwf e he
  split_ifs at h with h1 h2
  · simp only [Option.some.injEq] at h; omega
  · simp only [Option.some.injEq] at h; omega

theorem running_sum_succ (bits : Nat) (g : Graph) (v : List ℚ) (k : Nat) :
    running_sum bits g v (k + 1) = running_sum bits g v k + edge_sum bits g v k := by
  simp [running_sum, List.range_succ]

theorem mult_row_ok (bits : Nat) (g : Graph) (v : List ℚ) (i : Nat) (js : List Nat)
    (temp : ℚ) (hjs : ∀ j ∈ js, j < v.length) :
    mult_row bits g v i js temp =
      .ok (temp + (js.map fun j => A bits g i j * v.getD j 0).sum) := by
  induction js generalizing temp with
  | nil => simp [mult_row]
  | cons j js ih =>
    have hj : j < v.length := hjs j (List.mem_cons_self j js)
    have hget : v.get? j = some (v.getD j 0) := by
      simp [List.getD, List.getElem?_eq_getElem hj]
    rw [mult_row, hget]
    simp only
    rw [ih _ (fun k hk => hjs k (List.mem_cons_of_mem j hk))]
    simp [add_assoc]

theorem mult_nodes_ok (bits : Nat) (g : Graph) (v : List ℚ) (asg : Assign)
    (hin : ∀ i, ∀ j ∈ g.incident i, j < v.length) (m : Nat) :
    ∀ (s : Nat) (w : List ℚ), s + m ≤ w.length →
      ∃ r, mult_nodes bits g v asg (List.range' s m) (running_sum bits g v s) w = .ok r ∧
        r.length = w.length ∧
        ∀ k, r.getD k 0 =
          if s ≤ k ∧ k < s + m then asg.apply (w.getD k 0) (running_sum bits g v (k + 1))
          else w.getD k 0 := by
  induction m with
  | zero =>
    intro s w _
    refine ⟨w, by simp [mult_nodes], rfl, ?_⟩
    intro k
    have : ¬ (s ≤ k ∧ k < s + 0) := by omega
    rw [if_neg this]
  | succ m ih =>
    intro s w hs
    have hsw : s < w.length := by omega
    have hget : w.get? s = some (w.getD s 0) := by
      simp [List.getD, List.getElem?_eq_getElem hsw]
    obtain ⟨r, hr, hlen, hent⟩ := ih (s + 1)
      (w.set s (asg.apply (w.getD s 0) (running_sum bits g v (s + 1))))
      (by rw [List.length_set]; omega)
    refine ⟨r, ?_, ?_, ?_⟩
    · rw [List.range'_succ, mult_nodes, mult_row_ok bits g v s _ _ (hin s)]
      simp only
      rw [hget]
      simp only
      have : running_sum bits g v s +
          ((g.incident s).map fun j => A bits g s j * v.getD j 0).sum =
          running_sum bits g v (s + 1) := by
        rw [running_sum_succ]; rfl
      rw [this]
      exact hr
    · rw [hlen, List.length_set]
    · intro k
      rw [hent k]
      by_cases hk : k = s
      · subst hk
        have h1 : ¬ (k + 1 ≤ k ∧ k < k + 1 + m) := by omega
        have h2 : k ≤ k ∧ k < k + (m + 1) := by omega
        rw [if_neg h1, if_pos h2]
        simp [List.getD, List.getElem?_set, hsw]
      · have hne : (w.set s (asg.apply (w.getD s 0) (running_sum bits g v (s + 1)))).getD k 0 =
            w.getD k 0 := by
          simp [List.getD, List.getElem?_set, Ne.symm hk]
        rw [hne]
        by_cases h1 : s + 1 ≤ k ∧ k < s + 1 + m
        · have h2 : s ≤ k ∧ k < s + (m + 1) := by omega
          rw [if_pos h1, if_pos h2]
        · have h2 : ¬ (s ≤ k ∧ k < s + (m + 1)) := by omega
          rw [if_neg h1, if_neg h2]

/-- The vector left in `w` by `mult` on a well-formed graph and vectors of length
`get_dim()`: the entry of node `k` is `Assign::apply` of its old value and the
running total of the edge sums of nodes `0..k`. -/
theorem mult_ok (bits : Nat) (g : Graph) (v w : List ℚ) (asg : Assign) (hwf : g.wf)
    (hv : v.length = get_dim g) (hw : w.length = get_dim g) :
    ∃ r, mult bits g v w asg = .ok r ∧ r.length = get_dim g ∧
      ∀ k, k < get_dim g →
        r.getD k 0 = asg.apply (w.getD k 0) (running_sum bits g v (k + 1)) := by
  have hin : ∀ i, ∀ j ∈ g.incident i, j < v.length := by
    intro i j hj
    rw [hv]
    exact incident_lt g hwf i j hj
  obtain ⟨r, hr, hlen, hent⟩ :=
    mult_nodes_ok bits g v asg hin g.num_nodes 0 w (by rw [hw]; simp [get_dim])
  refine ⟨r, ?_, by rw [hlen, hw], ?_⟩
  · have h0 : running_sum bits g v 0 = 0 := by simp [running_sum]
    rw [mult, if_neg (by rw [hv, hw]; simp), List.range_eq_range', ← h0]
    exact hr
  · intro k hk
    rw [hent k, if_pos ⟨Nat.zero_le k, by simpa [get_dim] using hk⟩]

theorem lin_comb_getD (a c : ℚ) (x y : List ℚ) (hxy : x.length = y.length) (j : Nat) :
    (lin_comb a c x y).getD j 0 = a * x.getD j 0 + c * y.getD j 0 := by
  induction x generalizing y j with
  | nil =>
    cases y with
    | nil => simp [lin_comb]
    | cons q ys => simp at hxy
  | cons p xs ih =>
    cases y with
    | nil => simp at hxy
    | cons q ys =>
      cases j with
      | zero => simp [lin_comb]
      | succ j =>
        have := ih ys (by simpa using hxy) j
        simpa [lin_comb] using this

theorem sum_map_lin (a c : ℚ) (p q : Nat → ℚ) (js : List Nat) :
    (js.map fun j => a * p j + c * q j).sum = a * (js.map p).sum + c * (js.map q).sum := by
  induction js with
  | nil => simp
  | cons j js ih =>
    rw [List.map_cons, List.sum_cons, ih, List.map_cons, List.sum_cons, List.map_cons,
      List.sum_cons]
    ring

theorem edge_sum_lin_comb (bits : Nat) (g : Graph) (a c : ℚ) (x y : List ℚ)
    (hxy : x.length = y.length) (i : Nat) :
    edge_sum bits g (lin_comb a c x y) i =
      a * edge_sum bits g x i + c * edge_sum bits g y i := by
  have hfun : (fun j => A bits g i j * (lin_comb a c x y).getD j 0) =
      fun j => a * (A bits g i j * x.getD j 0) + c * (A bits g i j * y.getD j 0) := by
    funext j
    rw [lin_comb_getD a c x y hxy]
    ring
  unfold edge_sum
  rw [hfun, sum_map_lin]

theorem running_sum_lin_comb (bits : Nat) (g : Graph) (a c : ℚ) (x y : List ℚ)
    (hxy : x.length = y.length) (k : Nat) :
    running_sum bits g (lin_comb a c x y) k =
      a * running_sum bits g x k + c * running_sum bits g y k := by
  induction k with
  | zero => simp [running_sum]
  | succ k ih =>
    rw [running_sum_succ, running_sum_succ, running_sum_succ, ih,
      edge_sum_lin_comb bits g a c x y hxy]
    ring

/-- C10: `mult` is linear in its input: on a well-formed graph, for all scalars
`a`, `c` and all vectors `x`, `y` of length `get_dim()`, the overwrite-mode calls
on `x`, on `y` and on `a*x + c*y` all return, and the result for `a*x + c*y` is,
entry by entry, `a` times the result for `x` plus `c` times the result for `y`. -/
theorem mult_linear (bits : Nat) (g : Graph) (a c : ℚ) (x y wx wy w : List ℚ)
    (hwf : g.wf) (hx : x.length = get_dim g) (hy : y.length = get_dim g)
    (hwx : wx.length = get_dim g) (hwy : wy.length = get_dim g)
    (hw : w.length = get_dim g) :
    ∃ rx ry r, mult bits g x wx .assign_sum = .ok rx ∧
      mult bits g y wy .assign_sum = .ok ry ∧
      mult bits g (lin_comb a c x y) w .assign_sum = .ok r ∧
      r.length = get_dim g ∧
      ∀ k, k < get_dim g → r.getD k 0 = a * rx.getD k 0 + c * ry.getD k 0 := by
  have hxy : x.length = y.length := by rw [hx, hy]
  have hl : (lin_comb a c x y).length = get_dim g := by
    simp [lin_comb, hx, hy]
  obtain ⟨rx, hrx, _, hex⟩ := mult_ok bits g x wx .assign_sum hwf hx hwx
  obtain ⟨ry, hry, _, hey⟩ := mult_ok bits g y wy .assign_sum hwf hy hwy
  obtain ⟨r, hr, hlen, he⟩ := mult_ok bits g (lin_comb a c x y) w .assign_sum hwf hl hw
  refine ⟨rx, ry, r, hrx, hry, hr, hlen, ?_⟩
  intro k hk
  rw [he k hk, hex k hk, hey k hk]
  simp only [Assign.apply]
  exact running_sum_lin_comb bits g a c x y hxy (k + 1)

/-! ## Evaluation at the sample inputs -/

theorem g_boundary_mesh_single : g_boundary mesh_single 0 = 1 := by
  have hp : mesh_single.position 0 = ⟨0, 0, 0⟩ := rfl
  rw [g_boundary, hp]
  norm_num [norm_inf, Point.sub, thisbox, Box3D.contains, abs_eq_max_neg, max_def]

theorem g_boundary_mesh_pair :
    g_boundary mesh_pair 0 = -1 ∧ g_boundary mesh_pair 1 = -1 := by
  have hp0 : mesh_pair.position 0 = ⟨0, 3/10, 0⟩ := rfl
  have hp1 : mesh_pair.position 1 = ⟨1/10, 3/10, 0⟩ := rfl
  constructor
  · rw [g_boundary, hp0]
    norm_num [norm_inf, Point.sub, thisbox, Box3D.contains, abs_eq_max_neg, max_def]
  · rw [g_boundary, hp1]
    norm_num [norm_inf, Point.sub, thisbox, Box3D.contains, abs_eq_max_neg, max_def]

theorem g_boundary_mesh_path :
    g_boundary mesh_path 0 = -1 ∧ g_boundary mesh_path 1 = -1 ∧
      g_boundary mesh_path 2 = -1 := by
  have hp0 : mesh_path.position 0 = ⟨0, 3/10, 0⟩ := rfl
  have hp1 : mesh_path.position 1 = ⟨1/10, 3/10, 0⟩ := rfl
  have hp2 : mesh_path.position 2 = ⟨1/5, 3/10, 0⟩ := rfl
  refine ⟨?_, ?_, ?_⟩
  · rw [g_boundary, hp0]
    norm_num [norm_inf, Point.sub, thisbox, Box3D.contains, abs_eq_max_neg, max_def]
  · rw [g_boundary, hp1]
    norm_num [norm_inf, Point.sub, thisbox, Box3D.contains, abs_eq_max_neg, max_def]
  · rw [g_boundary, hp2]
    norm_num [norm_inf, Point.sub, thisbox, Box3D.contains, abs_eq_max_neg, max_def]

theorem g_boundary_mesh_source :
    g_boundary mesh_source 0 = -1 ∧ g_boundary mesh_source 1 = 1 := by
  have hp0 : mesh_source.position 0 = ⟨0, 3/10, 0⟩ := rfl
  have hp1 : mesh_source.position 1 = ⟨0, 1/5, 0⟩ := rfl
  constructor
  · rw [g_boundary, hp0]
    norm_num [norm_inf, Point.sub, thisbox, Box3D.contains, abs_eq_max_neg, max_def]
  · rw [g_boundary, hp1]
    norm_num [norm_inf, Point.sub, thisbox, Box3D.contains, abs_eq_max_neg, max_def]

/-- C4, at a concrete input: node `1` of `mesh_source` is boundary-constrained;
its diagonal entry is `1` and its row and column are otherwise `0`. -/
theorem A_boundary_identity_witness :
    g_boundary mesh_source 1 ≠ -1 ∧
    (A 32 mesh_source 1 1 = 1 ∧
      ∀ j, 1 ≠ j → A 32 mesh_source 1 j = 0 ∧ A 32 mesh_source j 1 = 0) :=
  ⟨by rw [g_boundary_mesh_source.2]; norm_num,
    A_boundary_identity 32 mesh_source 1 (by rw [g_boundary_mesh_source.2]; norm_num)⟩

/-- C6, at a concrete input: the two unconstrained nodes of `mesh_pair` are
joined by an edge and the entry is `1`. -/
theorem A_interior_offdiag_witness :
    (0 ≠ 1 ∧ g_boundary mesh_pair 0 = -1 ∧ g_boundary mesh_pair 1 = -1) ∧
      A 32 mesh_pair 0 1 = 1 :=
  ⟨⟨by decide, g_boundary_mesh_pair.1, g_boundary_mesh_pair.2⟩,
    (A_interior_offdiag 32 mesh_pair 0 1 (by decide) g_boundary_mesh_pair.1
      g_boundary_mesh_pair.2).1 (Or.inl (by simp [mesh_pair]))⟩

/-- C7, at a concrete input: node `1` of `mesh_source` has the fixed value `1`
and the right-hand side there is `1`. -/
theorem b_boundary_witness :
    g_boundary mesh_source 1 ≠ -1 ∧ b libm_sample mesh_source 1 = some 1 :=
  ⟨by rw [g_boundary_mesh_source.2]; norm_num,
    g_boundary_mesh_source.2 ▸
      (b_boundary libm_sample mesh_source 1
        (by rw [g_boundary_mesh_source.2]; norm_num)).1⟩

/-- C8, at a concrete input: node `0` of `mesh_source` is unconstrained, its
only neighbour is constrained, and `b` returns `h^2 * f(0)` plus the boundary
value of that neighbour. -/
theorem b_interior_witness :
    (0 < mesh_source.edges.length ∧ g_boundary mesh_source 0 = -1) ∧
    ∃ h, mesh_source.edge_length libm_sample 0 = some h ∧
      f libm_sample mesh_source 0 = 5 * libm_sample.cos (norm_1 (mesh_source.position 0)) ∧
      b libm_sample mesh_source 0 = some (h ^ 2 * f libm_sample mesh_source 0 +
        (((mesh_source.incident 0).filter fun j => decide (g_boundary mesh_source j ≠ -1)).map
          (g_boundary mesh_source)).sum) :=
  ⟨⟨by simp [mesh_source], g_boundary_mesh_source.1⟩,
    b_interior libm_sample mesh_source 0 (by simp [mesh_source]) g_boundary_mesh_source.1⟩

/-- C10, at a concrete input: on `mesh_pair`, the result for `2*[1,0] + 3*[0,1]`
is `2` times the result for `[1,0]` plus `3` times the result for `[0,1]`. -/
theorem mult_linear_witness :
    ∃ rx ry r, mult 32 mesh_pair [1, 0] [0, 0] .assign_sum = .ok rx ∧
      mult 32 mesh_pair [0, 1] [0, 0] .assign_sum = .ok ry ∧
      mult 32 mesh_pair (lin_comb 2 3 [1, 0] [0, 1]) [0, 0] .assign_sum = .ok r ∧
      r.length = get_dim mesh_pair ∧
      ∀ k, k < get_dim mesh_pair → r.getD k 0 = 2 * rx.getD k 0 + 3 * ry.getD k 0 :=
  mult_linear 32 mesh_pair 2 3 [1, 0] [0, 1] [0, 0] [0, 0] [0, 0]
    (by simp [Graph.wf, mesh_pair, Graph.num_nodes]) rfl rfl rfl rfl rfl

/-! ## Where the code departs from the specification -/

/-- For an unconstrained node of degree `d` with `0 < d < 2^bits`, the diagonal
entry is `2^bits - d`, a positive number. -/
theorem A_diag_interior (bits : Nat) (g : Graph) (i : Nat) (hi : g_boundary g i = -1)
    (h0 : 0 < g.degree i) (h1 : g.degree i < 2 ^ bits) :
    A bits g i i = (2 : ℚ) ^ bits - (g.degree i : ℚ) ∧ 0 < A bits g i i := by
  have hA : A bits g i i = neg_degree bits g i := by
    simp [A, L, hi]
  have hmod : (2 ^ bits - g.degree i % 2 ^ bits) % 2 ^ bits = 2 ^ bits - g.degree i := by
    rw [Nat.mod_eq_of_lt h1, Nat.mod_eq_of_lt (by omega)]
  have hval : neg_degree bits g i = (2 : ℚ) ^ bits - (g.degree i : ℚ) := by
    rw [neg_degree, hmod, Nat.cast_sub (le_of_lt h1)]
    norm_num
  rw [hA, hval]
  refine ⟨rfl, ?_⟩
  have : (g.degree i : ℚ) < (2 : ℚ) ^ bits := by exact_mod_cast h1
  linarith

/-- C5 fails on the code: node `0` of `mesh_pair` is unconstrained and has
degree `1`, and with a 32-bit `size_type` the diagonal entry `A(0,0)` is
`4294967295`, not `-1`, and is not `<= 0`. -/
theorem A_diag_unsigned_wrap :
    g_boundary mesh_pair 0 = -1 ∧ mesh_pair.degree 0 = 1 ∧
      A 32 mesh_pair 0 0 = 4294967295 ∧
      A 32 mesh_pair 0 0 ≠ -((mesh_pair.degree 0 : ℕ) : ℚ) ∧
      ¬ A 32 mesh_pair 0 0 ≤ 0 := by
  have hd : mesh_pair.degree 0 = 1 := rfl
  have hA : A 32 mesh_pair 0 0 = 4294967295 := by
    norm_num [A, L, g_boundary_mesh_pair.1, neg_degree, hd]
  refine ⟨g_boundary_mesh_pair.1, hd, hA, ?_, ?_⟩
  · rw [hA, hd]; norm_num
  · rw [hA]; norm_num

/-- C1 fails on the code.  On `mesh_single` (one boundary-constrained node, no
edge) with `v = [1]`, `mult` writes `0` where row `0` of the product is
`A(0,0)*v[0] = 1`: the diagonal term is left out.  On `mesh_path` with
`v = [0,1,0]`, `mult` writes `2` for node `2` where row `2` of the product is
`1`: the accumulator still holds the sum of the earlier rows. -/
theorem mult_misses_row_product :
    mult 32 mesh_single [1] [0] .assign_sum = .ok [0] ∧
    A 32 mesh_single 0 0 * ([1] : List ℚ).getD 0 0 + edge_sum 32 mesh_single [1] 0 = 1 ∧
    mult 32 mesh_path [0, 1, 0] [0, 0, 0] .assign_sum = .ok [1, 1, 2] ∧
    A 32 mesh_path 2 2 * ([0, 1, 0] : List ℚ).getD 2 0 +
      edge_sum 32 mesh_path [0, 1, 0] 2 = 1 := by
  have hs : mesh_single.incident 0 = [] := rfl
  have hns : mesh_single.num_nodes = 1 := rfl
  have h0 : mesh_path.incident 0 = [1] := rfl
  have h1 : mesh_path.incident 1 = [0, 2] := rfl
  have h2 : mesh_path.incident 2 = [1] := rfl
  have hnp : mesh_path.num_nodes = 3 := rfl
  have he01 : mesh_path.has_edge 0 1 = true := rfl
  have he10 : mesh_path.has_edge 1 0 = true := rfl
  have he12 : mesh_path.has_edge 1 2 = true := rfl
  have he21 : mesh_path.has_edge 2 1 = true := rfl
  obtain ⟨g0, g1, g2⟩ := g_boundary_mesh_path
  refine ⟨?_, ?_, ?_, ?_⟩
  · norm_num [mult, mult_nodes, mult_row, List.range, List.range.loop, hns, hs, Assign.apply]
  · norm_num [edge_sum, hs, A, g_boundary_mesh_single]
  · norm_num [mult, mult_nodes, mult_row, List.range, List.range.loop, hnp, h0, h1, h2,
      Assign.apply, A, L, g0, g1, g2, he01, he10, he12, he21]
  · norm_num [edge_sum, h2, A, L, g1, g2, he21]

/-- C3 fails on the code.  On `mesh_source` (an unconstrained node `0` with one
neighbour of boundary value `1`), whatever the library functions return, the
discrete Poisson equation with the Dirichlet data has a solution `u`, and no
solution of it satisfies row `0` of the assembled system: the row sum is
`h^2*f(0) - 1` and `b(0, graph)` is `h^2*f(0) + 1`. -/
theorem rhs_sign_divergence :
    (∀ m : Libm, ∃ u : List ℚ, u.length = get_dim mesh_source ∧
      solves_poisson m 32 mesh_source u) ∧
    (∀ (m : Libm) (u : List ℚ), u.length = get_dim mesh_source →
      solves_poisson m 32 mesh_source u →
      ∃ h, mesh_source.edge_length m 0 = some h ∧
        row_dot (A 32 mesh_source) mesh_source u 0 = h ^ 2 * f m mesh_source 0 - 1 ∧
        b m mesh_source 0 = some (h ^ 2 * f m mesh_source 0 + 1) ∧
        ¬ solves_system m 32 mesh_source u) := by
  obtain ⟨g0, g1⟩ := g_boundary_mesh_source
  have hn : mesh_source.num_nodes = 2 := rfl
  have hd : mesh_source.degree 0 = 1 := rfl
  have hi0 : mesh_source.incident 0 = [1] := rfl
  have he01 : mesh_source.has_edge 0 1 = true := rfl
  have hL00 : L 32 mesh_source 0 0 = 4294967295 := by
    norm_num [L, neg_degree, hd]
  have hL01 : L 32 mesh_source 0 1 = 1 := by
    norm_num [L, he01]
  have hA00 : A 32 mesh_source 0 0 = 4294967295 := by
    norm_num [A, g0, hL00]
  have hA01 : A 32 mesh_source 0 1 = 0 := by
    norm_num [A, g0, g1]
  have hlen : ∀ m : Libm, mesh_source.edge_length m 0 =
      some (norm m ((mesh_source.position 0).sub (mesh_source.position 1))) := fun m => rfl
  have hb : ∀ (m : Libm) (h : ℚ), mesh_source.edge_length m 0 = some h →
      b m mesh_source 0 = some (h ^ 2 * f m mesh_source 0 + 1) := by
    intro m h hh
    norm_num [b, g0, g1, hh, hi0, b_sum]
  have hrowL : ∀ u : List ℚ, row_dot (L 32 mesh_source) mesh_source u 0 =
      4294967295 * u.getD 0 0 + u.getD 1 0 := by
    intro u
    norm_num [row_dot, hn, List.range, List.range.loop, hL00, hL01]
  have hrowA : ∀ u : List ℚ, row_dot (A 32 mesh_source) mesh_source u 0 =
      4294967295 * u.getD 0 0 := by
    intro u
    norm_num [row_dot, hn, List.range, List.range.loop, hA00, hA01]
  constructor
  · intro m
    refine ⟨[((norm m ((mesh_source.position 0).sub (mesh_source.position 1))) ^ 2 *
      f m mesh_source 0 - 1) / 4294967295, 1], rfl, ?_, ?_⟩
    · intro j hj hg
      rw [hn] at hj
      interval_cases j
      · exact absurd g0 hg
      · rw [g1]; rfl
    · refine ⟨_, hlen m, ?_⟩
      intro i hi hg
      rw [hn] at hi
      interval_cases i
      · rw [hrowL]
        norm_num
        ring
      · rw [g1] at hg; norm_num at hg
  · intro m u _ hu
    obtain ⟨hdir, h, hh, hpoi⟩ := hu
    have hu1 : u.getD 1 0 = 1 := by
      rw [hdir 1 (by rw [hn]; norm_num) (by rw [g1]; norm_num), g1]
    have hrow := hpoi 0 (by rw [hn]; norm_num) g0
    rw [hrowL, hu1] at hrow
    refine ⟨h, hh, ?_, hb m h hh, ?_⟩
    · rw [hrowA]; linarith
    · intro hsys
      have h0 := hsys 0 (by rw [hn]; norm_num)
      rw [hb m h hh, hrowA] at h0
      have := Option.some.inj h0
      linarith

/-! ## The size check of `mult` -/

theorem mult_row_not_size_mismatch (bits : Nat) (g : Graph) (v : List ℚ) (i : Nat)
    (js : List Nat) (temp : ℚ) :
    mult_row bits g v i js temp ≠ .error .size_mismatch := by
  induction js generalizing temp with
  | nil => simp [mult_row]
  | cons j js ih =>
    rw [mult_row]
    cases v.get? j with
    | none => simp
    | some vj => exact ih _

theorem mult_nodes_not_size_mismatch (bits : Nat) (g : Graph) (v : List ℚ) (asg : Assign)
    (is : List Nat) (temp : ℚ) (w : List ℚ) :
    mult_nodes bits g v asg is temp w ≠ .error .size_mismatch := by
  induction is generalizing temp w with
  | nil => simp [mult_nodes]
  | cons i is ih =>
    rw [mult_nodes]
    cases hrow : mult_row bits g v i (g.incident i) temp with
    | error e =>
      simp only
      intro h
      apply mult_row_not_size_mismatch bits g v i (g.incident i) temp
      rw [hrow, Except.error.inj h]
    | ok temp1 =>
      simp only
      cases w.get? i with
      | none => simp
      | some wi => exact ih _ _

/-- C11, as the code has it: `mult` fails with the size-mismatch error exactly
when `size(v) != size(w)`; the check is the first step of the call, before any
entry is read or written, and it does not compare the sizes with `get_dim()`. -/
theorem mult_size_mismatch_iff (bits : Nat) (g : Graph) (v w : List ℚ) (asg : Assign) :
    mult bits g v w asg = .error .size_mismatch ↔ v.length ≠ w.length := by
  constructor
  · intro h hlen
    rw [mult, if_neg (not_not.mpr hlen)] at h
    exact mult_nodes_not_size_mismatch bits g v asg _ _ _ h
  · intro hlen
    rw [mult, if_pos hlen]

/-- C11 fails on the code as stated: on `mesh_single`, of dimension 1, the
empty input and output vectors are both shorter than the dimension and of equal
length; the assertion passes and the call does not fail with the size-mismatch
error but on the access to the entry of node `0`. -/
theorem mult_short_vectors_pass_check :
    ([] : List ℚ).length < get_dim mesh_single ∧
    mult 32 mesh_single [] [] .assign_sum = .error .out_of_range ∧
    mult 32 mesh_single [] [] .assign_sum ≠ .error .size_mismatch := by
  have hs : mesh_single.incident 0 = [] := rfl
  have hns : mesh_single.num_nodes = 1 := rfl
  have h : mult 32 mesh_single [] [] .assign_sum = .error .out_of_range := by
    simp [mult, mult_nodes, mult_row, List.range, List.range.loop, hns, hs]
  refine ⟨by simp [get_dim, hns], h, ?_⟩
  rw [h]
  simp

/-! ## Rows of constrained nodes, accumulation modes, dimensions -/

/-- C12 fails on the code: node `1` of `mesh_source` is boundary-constrained,
and with `v = [3, 7]` the overwrite-mode call writes `0` for it, not
`v[1] = 7`. -/
theorem mult_drops_dirichlet_row :
    g_boundary mesh_source 1 ≠ -1 ∧
    mult 32 mesh_source [3, 7] [0, 0] .assign_sum = .ok [0, 0] ∧
    ([3, 7] : List ℚ).getD 1 0 = 7 := by
  obtain ⟨g0, g1⟩ := g_boundary_mesh_source
  have h0 : mesh_source.incident 0 = [1] := rfl
  have h1 : mesh_source.incident 1 = [0] := rfl
  have hn : mesh_source.num_nodes = 2 := rfl
  refine ⟨by rw [g1]; norm_num, ?_, rfl⟩
  norm_num [mult, mult_nodes, mult_row, List.range, List.range.loop, hn, h0, h1,
    Assign.apply, A, g0, g1]

/-- C13: the three accumulation modes agree.  On a well-formed graph, for an
input `v` and initial outputs of length `get_dim()`, the three calls return;
with `r` the overwrite-mode result, the add-into mode leaves `w0 + r` and the
subtract-from mode leaves `w0 - r`, entry by entry. -/
theorem mult_modes_agree (bits : Nat) (g : Graph) (v w0 w1 : List ℚ) (hwf : g.wf)
    (hv : v.length = get_dim g) (hw0 : w0.length = get_dim g)
    (hw1 : w1.length = get_dim g) :
    ∃ r rp rm, mult bits g v w1 .assign_sum = .ok r ∧
      mult bits g v w0 .plus_sum = .ok rp ∧
      mult bits g v w0 .minus_sum = .ok rm ∧
      r.length = get_dim g ∧ rp.length = get_dim g ∧ rm.length = get_dim g ∧
      ∀ k, k < get_dim g →
        rp.getD k 0 = w0.getD k 0 + r.getD k 0 ∧
        rm.getD k 0 = w0.getD k 0 - r.getD k 0 := by
  obtain ⟨r, hr, hlr, her⟩ := mult_ok bits g v w1 .assign_sum hwf hv hw1
  obtain ⟨rp, hrp, hlp, hep⟩ := mult_ok bits g v w0 .plus_sum hwf hv hw0
  obtain ⟨rm, hrm, hlm, hem⟩ := mult_ok bits g v w0 .minus_sum hwf hv hw0
  refine ⟨r, rp, rm, hr, hrp, hrm, hlr, hlp, hlm, ?_⟩
  intro k hk
  rw [her k hk, hep k hk, hem k hk]
  exact ⟨rfl, rfl⟩

/-- C13, at a concrete input: `mesh_pair` with `v = [1, 1]` and initial output
`[5, 5]`. -/
theorem mult_modes_agree_witness :
    ∃ r rp rm, mult 32 mesh_pair [1, 1] [0, 0] .assign_sum = .ok r ∧
      mult 32 mesh_pair [1, 1] [5, 5] .plus_sum = .ok rp ∧
      mult 32 mesh_pair [1, 1] [5, 5] .minus_sum = .ok rm ∧
      r.length = get_dim mesh_pair ∧ rp.length = get_dim mesh_pair ∧
      rm.length = get_dim mesh_pair ∧
      ∀ k, k < get_dim mesh_pair →
        rp.getD k 0 = ([5, 5] : List ℚ).getD k 0 + r.getD k 0 ∧
        rm.getD k 0 = ([5, 5] : List ℚ).getD k 0 - r.getD k 0 :=
  mult_modes_agree 32 mesh_pair [1, 1] [5, 5] [0, 0]
    (by simp [Graph.wf, mesh_pair, Graph.num_nodes]) rfl rfl rfl

/-- C14: the operator built on `g` is square with dimension the node count:
`get_dim() = g.num_nodes()`, `num_rows(M) = num_cols(M) = get_dim()` and
`size(M) = num_rows(M) * num_cols(M)`. -/
theorem operator_dimensions (g : Graph) :
    get_dim g = g.num_nodes ∧ num_rows g = get_dim g ∧ num_cols g = get_dim g ∧
      size g = num_rows g * num_cols g :=
  ⟨rfl, rfl, rfl, rfl⟩

/-! ## `remove_box` and the degenerate mesh -/

theorem num_nodes_remove_node_le (g : Graph) (n : Nat) :
    (g.remove_node n).num_nodes ≤ g.num_nodes := by
  simp only [Graph.remove_node, Graph.num_nodes]
  exact (List.eraseIdx_sublist _ _).length_le

theorem remove_box_loop_succ (bb : Box3D) (fuel it : Nat) (g : Graph) :
    remove_box_loop bb (fuel + 1) it g =
      if it = g.num_nodes then some g
      else if g.num_nodes < it then none
      else if bb.contains (g.position it) then
        remove_box_loop bb fuel (it + 1) (g.remove_node it)
      else remove_box_loop bb fuel (it + 1) g := by
  rw [remove_box_loop]

/-- The fuel given by `remove_box` is enough: once the fuel covers the
positions left to visit, more fuel does not change the result of the loop. -/
theorem remove_box_loop_fuel (bb : Box3D) (fuel : Nat) :
    ∀ (it : Nat) (g : Graph), g.num_nodes + 1 ≤ fuel + it →
      remove_box_loop bb (fuel + 1) it g = remove_box_loop bb fuel it g := by
  induction fuel with
  | zero =>
    intro it g h
    have h1 : ¬ it = g.num_nodes := by omega
    have h2 : g.num_nodes < it := by omega
    simp [remove_box_loop, h1, h2]
  | succ fuel ih =>
    intro it g h
    rw [remove_box_loop_succ bb (fuel + 1) it g, remove_box_loop_succ bb fuel it g]
    by_cases h1 : it = g.num_nodes
    · rw [if_pos h1, if_pos h1]
    · rw [if_neg h1, if_neg h1]
      by_cases h2 : g.num_nodes < it
      · rw [if_pos h2, if_pos h2]
      · rw [if_neg h2, if_neg h2]
        by_cases h3 : bb.contains (g.position it) = true
        · rw [if_pos h3, if_pos h3]
          have := num_nodes_remove_node_le g it
          exact ih (it + 1) (g.remove_node it) (by omega)
        · rw [if_neg h3, if_neg h3]
          exact ih (it + 1) g (by omega)

/-- C15 fails on the code: both nodes of `mesh_inside` lie in the box
`thisbox`; `remove_box` removes the first, steps over the second, which has
moved to position `0`, and returns a graph whose node `0` is still in the
box. -/
theorem remove_box_leaves_node_in_box :
    thisbox.contains (mesh_inside.position 0) = true ∧
    thisbox.contains (mesh_inside.position 1) = true ∧
    remove_box mesh_inside thisbox = some ⟨[⟨1/10, 0, 0⟩], []⟩ ∧
    ∃ g, remove_box mesh_inside thisbox = some g ∧ 0 < g.num_nodes ∧
      thisbox.contains (g.position 0) = true := by
  have hp0 : mesh_inside.position 0 = ⟨0, 0, 0⟩ := rfl
  have hp1 : mesh_inside.position 1 = ⟨1/10, 0, 0⟩ := rfl
  have hn : mesh_inside.num_nodes = 2 := rfl
  have hc0 : thisbox.contains (mesh_inside.position 0) = true := by
    rw [hp0]; norm_num [thisbox, Box3D.contains]
  have hc1 : thisbox.contains (mesh_inside.position 1) = true := by
    rw [hp1]; norm_num [thisbox, Box3D.contains]
  have hrm : mesh_inside.remove_node 0 = ⟨[⟨1/10, 0, 0⟩], []⟩ := by
    simp [Graph.remove_node, mesh_inside]
  have hn1 : (⟨[⟨1/10, 0, 0⟩], []⟩ : Graph).num_nodes = 1 := rfl
  have hrun : remove_box mesh_inside thisbox = some ⟨[⟨1/10, 0, 0⟩], []⟩ := by
    rw [remove_box, hn]
    rw [remove_box_loop, if_neg (by rw [hn]; norm_num), if_neg (by rw [hn]; norm_num),
      if_pos hc0, hrm, remove_box_loop, if_pos hn1.symm]
  refine ⟨hc0, hc1, hrun, _, hrun, by rw [hn1]; norm_num, ?_⟩
  have hp : (⟨[⟨1/10, 0, 0⟩], []⟩ : Graph).position 0 = ⟨1/10, 0, 0⟩ := rfl
  rw [hp]; norm_num [thisbox, Box3D.contains]

/-! ## Quadratic forms of the operator -/

theorem sum_range_map (F : Nat → ℚ) (n : Nat) :
    ((List.range n).map F).sum = ∑ i in Finset.range n, F i := by
  induction n with
  | zero => simp
  | succ n ih => simp [List.range_succ, Finset.sum_range_succ, ih]

theorem length_filter_range (p : Nat → Bool) (n : Nat) :
    (((List.range n).filter p).length : ℚ) =
      ∑ j in Finset.range n, if p j = true then (1 : ℚ) else 0 := by
  induction n with
  | zero => simp
  | succ n ih =>
    rw [List.range_succ, List.filter_append, List.length_append, Nat.cast_add, ih,
      Finset.sum_range_succ]
    cases h : p n <;> simp [h]

theorem sum_sym_pairs (n : Nat) (G : Nat → Nat → ℚ) (hdiag : ∀ i, G i i = 0) :
    ∑ i in Finset.range n, ∑ j in Finset.range n, G i j =
      ∑ i in Finset.range n, ∑ j in Finset.range n,
        if i < j then G i j + G j i else 0 := by
  have hsplit : ∀ i j, G i j = (if i < j then G i j else 0) + (if j < i then G i j else 0) := by
    intro i j
    rcases Nat.lt_trichotomy i j with h | h | h
    · simp [h, Nat.lt_asymm h]
    · subst h; simp [hdiag]
    · simp [h, Nat.lt_asymm h]
  have hswap : ∑ i in Finset.range n, ∑ j in Finset.range n, (if j < i then G i j else 0) =
      ∑ i in Finset.range n, ∑ j in Finset.range n, (if i < j then G j i else 0) :=
    Finset.sum_comm
  calc ∑ i in Finset.range n, ∑ j in Finset.range n, G i j
      = ∑ i in Finset.range n, ∑ j in Finset.range n,
          ((if i < j then G i j else 0) + (if j < i then G i j else 0)) := by
        refine Finset.sum_congr rfl fun i _ => Finset.sum_congr rfl fun j _ => hsplit i j
    _ = ∑ i in Finset.range n, ∑ j in Finset.range n, (if i < j then G i j else 0) +
          ∑ i in Finset.range n, ∑ j in Finset.range n, (if j < i then G i j else 0) := by
        simp only [Finset.sum_add_distrib]
    _ = ∑ i in Finset.range n, ∑ j in Finset.range n, (if i < j then G i j else 0) +
          ∑ i in Finset.range n, ∑ j in Finset.range n, (if i < j then G j i else 0) := by
        rw [hswap]
    _ = ∑ i in Finset.range n, ∑ j in Finset.range n,
          if i < j then G i j + G j i else 0 := by
        simp only [← Finset.sum_add_distrib]
        refine Finset.sum_congr rfl fun i _ => Finset.sum_congr rfl fun j _ => ?_
        split_ifs <;> simp

theorem quad_form_eq (M : Nat → Nat → ℚ) (n : Nat) (x : List ℚ) :
    quad_form M n x =
      ∑ i in Finset.range n, ∑ j in Finset.range n, x.getD i 0 * M i j * x.getD j 0 := by
  simp only [quad_form, sum_range_map]

theorem adjacent_symm (g : Graph) (i j : Nat) : g.adjacent i j = g.adjacent j i := by
  unfold Graph.adjacent
  rw [Bool.or_comm (g.has_edge i j)]
  by_cases h : i = j
  · subst h; rfl
  · have h2 : ¬ j = i := fun e => h e.symm
    simp [h, h2]

theorem adjacent_irrefl (g : Graph) (i : Nat) : g.adjacent i i = false := by
  simp [Graph.adjacent]

theorem A_of_neg_degree (bits : Nat) (g : Graph) (i j : Nat) :
    A bits g i j = A_of (neg_degree bits g) g i j := rfl

theorem A_of_offdiag (nd : Nat → ℚ) (g : Graph) (i j : Nat) (hij : i ≠ j) :
    A_of nd g i j =
      if g.adjacent i j = true ∧ g_boundary g i = -1 ∧ g_boundary g j = -1 then 1 else 0 := by
  by_cases hi : g_boundary g i = -1
  · by_cases hj : g_boundary g j = -1
    · by_cases he : (g.has_edge i j || g.has_edge j i) = true
      · simp [A_of, L_of, hij, hi, hj, Graph.adjacent, he]
      · simp [A_of, L_of, hij, hi, hj, Graph.adjacent, he]
    · simp [A_of, hij, hi, hj]
  · simp [A_of, hij, hi]

theorem A_of_diag (nd : Nat → ℚ) (g : Graph) (i : Nat) :
    A_of nd g i i = if g_boundary g i = -1 then nd i else 1 := by
  by_cases hi : g_boundary g i = -1
  · simp [A_of, L_of, hi]
  · simp [A_of, hi]

theorem interior_link_symm (g : Graph) (i j : Nat) :
    interior_link g i j = interior_link g j i := by
  unfold interior_link
  rw [adjacent_symm g i j]
  by_cases h : g.adjacent j i = true ∧ g_boundary g j = -1 ∧ g_boundary g i = -1
  · rw [if_pos h, if_pos ⟨h.1, h.2.2, h.2.1⟩]
  · rw [if_neg h, if_neg (fun hh => h ⟨hh.1, hh.2.2, hh.2.1⟩)]

theorem interior_link_self (g : Graph) (i : Nat) : interior_link g i i = 0 := by
  simp [interior_link, adjacent_irrefl]

theorem interior_link_constrained (g : Graph) (i j : Nat) (hi : g_boundary g i ≠ -1) :
    interior_link g i j = 0 := by
  simp [interior_link, hi]

theorem interior_link_nonneg (g : Graph) (i j : Nat) : 0 ≤ interior_link g i j := by
  unfold interior_link
  split_ifs <;> norm_num

theorem A_of_offdiag_link (nd : Nat → ℚ) (g : Graph) (i j : Nat) (hij : i ≠ j) :
    A_of nd g i j = interior_link g i j :=
  A_of_offdiag nd g i j hij

theorem adjacent_count_eq (g : Graph) (i : Nat) (hi : g_boundary g i = -1) :
    ((g.adjacent_count i : Nat) : ℚ) =
      ∑ j in Finset.range g.num_nodes, (interior_link g i j + boundary_link g i j) := by
  rw [Graph.adjacent_count, length_filter_range]
  refine Finset.sum_congr rfl fun j _ => ?_
  unfold interior_link boundary_link
  by_cases ha : g.adjacent i j = true
  · by_cases hj : g_boundary g j = -1
    · simp [ha, hi, hj]
    · simp [ha, hi, hj]
  · simp [ha]

theorem interior_edge_energy_eq (g : Graph) (x : List ℚ) :
    interior_edge_energy g x =
      ∑ i in Finset.range g.num_nodes, ∑ j in Finset.range g.num_nodes,
        if i < j then interior_link g i j * (x.getD i 0 - x.getD j 0) ^ 2 else 0 := by
  simp only [interior_edge_energy, sum_range_map]
  refine Finset.sum_congr rfl fun i _ => Finset.sum_congr rfl fun j _ => ?_
  unfold interior_link
  by_cases hlt : i < j
  · by_cases h : g.adjacent i j = true ∧ g_boundary g i = -1 ∧ g_boundary g j = -1
    · rw [if_pos hlt, if_pos h, if_pos ⟨hlt, h⟩]; ring
    · rw [if_pos hlt, if_neg h, if_neg (fun hh => h hh.2)]; ring
  · rw [if_neg hlt, if_neg (fun hh => hlt hh.1)]

theorem boundary_coupling_eq (g : Graph) (x : List ℚ) :
    boundary_coupling g x =
      ∑ i in Finset.range g.num_nodes,
        if g_boundary g i = -1 then
          (∑ j in Finset.range g.num_nodes, boundary_link g i j) * x.getD i 0 ^ 2
        else 0 := by
  simp only [boundary_coupling, sum_range_map, constrained_neighbours, length_filter_range,
    boundary_link]

theorem interior_edge_energy_nonneg (g : Graph) (x : List ℚ) :
    0 ≤ interior_edge_energy g x := by
  rw [interior_edge_energy_eq]
  refine Finset.sum_nonneg fun i _ => Finset.sum_nonneg fun j _ => ?_
  split_ifs
  · exact mul_nonneg (interior_link_nonneg g i j) (by positivity)
  · exact le_refl 0

theorem boundary_coupling_nonneg (g : Graph) (x : List ℚ) :
    0 ≤ boundary_coupling g x := by
  rw [boundary_coupling_eq]
  refine Finset.sum_nonneg fun i _ => ?_
  split_ifs
  · refine mul_nonneg (Finset.sum_nonneg fun j _ => ?_) (by positivity)
    unfold boundary_link
    split_ifs <;> norm_num
  · exact le_refl 0

/-- The off-diagonal part of a quadratic form with the weights `interior_link`,
over ordered pairs, and the squares it pairs up to. -/
theorem link_pairs (g : Graph) (X : Nat → ℚ) (s : ℚ) :
    ∑ i in Finset.range g.num_nodes, ∑ j in Finset.range g.num_nodes,
        interior_link g i j * (X i ^ 2 + s * (X i * X j)) =
      ∑ i in Finset.range g.num_nodes, ∑ j in Finset.range g.num_nodes,
        if i < j then interior_link g i j * (X i ^ 2 + 2 * s * (X i * X j) + X j ^ 2)
        else 0 := by
  rw [sum_sym_pairs g.num_nodes (fun i j => interior_link g i j * (X i ^ 2 + s * (X i * X j)))
    (fun i => by simp [interior_link_self])]
  refine Finset.sum_congr rfl fun i _ => Finset.sum_congr rfl fun j _ => ?_
  split_ifs
  · rw [interior_link_symm g j i]; ring
  · rfl

theorem quad_form_split (nd : Nat → ℚ) (g : Graph) (x : List ℚ) :
    quad_form (A_of nd g) g.num_nodes x =
      ∑ i in Finset.range g.num_nodes, A_of nd g i i * x.getD i 0 ^ 2 +
      ∑ i in Finset.range g.num_nodes, ∑ j in Finset.range g.num_nodes,
        interior_link g i j * (x.getD i 0 * x.getD j 0) := by
  rw [quad_form_eq]
  have hterm : ∀ i j, x.getD i 0 * A_of nd g i j * x.getD j 0 =
      (if i = j then A_of nd g i i * x.getD i 0 ^ 2 else 0) +
        interior_link g i j * (x.getD i 0 * x.getD j 0) := by
    intro i j
    by_cases hij : i = j
    · subst hij
      rw [if_pos rfl, interior_link_self]; ring
    · rw [if_neg hij, A_of_offdiag_link nd g i j hij]; ring
  simp only [hterm, Finset.sum_add_distrib]
  congr 1
  refine Finset.sum_congr rfl fun i hi => ?_
  rw [Finset.sum_ite_eq, if_pos hi]

theorem mem_incident_of_edge (g : Graph) (i j : Nat)
    (h : (i, j) ∈ g.edges ∨ (j, i) ∈ g.edges) : j ∈ g.incident i := by
  simp only [Graph.incident, List.mem_filterMap]
  rcases h with h | h
  · exact ⟨(i, j), h, by simp⟩
  · refine ⟨(j, i), h, ?_⟩
    by_cases hji : j = i
    · simp [hji]
    · simp [hji]

theorem adjacent_count_le_degree (g : Graph) (i : Nat) :
    g.adjacent_count i ≤ g.degree i := by
  unfold Graph.adjacent_count Graph.degree
  apply List.Subperm.length_le
  apply List.subperm_of_subset ((List.nodup_range _).filter _)
  intro j hj
  rw [List.mem_filter] at hj
  have ha := hj.2
  simp only [Graph.adjacent, Bool.and_eq_true, Bool.or_eq_true, decide_eq_true_eq] at ha
  apply mem_incident_of_edge
  rcases ha.2 with h | h
  · exact (has_edge_iff g i j).1 h
  · exact ((has_edge_iff g j i).1 h).symm

theorem neg_degree_ge (bits : Nat) (g : Graph) (i : Nat)
    (hd : 2 * g.degree i ≤ 2 ^ bits) :
    ((g.degree i : Nat) : ℚ) ≤ neg_degree bits g i := by
  unfold neg_degree
  by_cases h0 : g.degree i = 0
  · rw [h0]; simp
  · have hlt : g.degree i < 2 ^ bits := by omega
    have hmod : (2 ^ bits - g.degree i % 2 ^ bits) % 2 ^ bits = 2 ^ bits - g.degree i := by
      rw [Nat.mod_eq_of_lt hlt, Nat.mod_eq_of_lt (by omega)]
    rw [hmod]
    exact_mod_cast (by omega : g.degree i ≤ 2 ^ bits - g.degree i)

theorem boundary_link_nonneg (g : Graph) (i j : Nat) : 0 ≤ boundary_link g i j := by
  unfold boundary_link
  split_ifs <;> norm_num

theorem link_row_le_diag (bits : Nat) (g : Graph) (i : Nat)
    (hd : 2 * g.degree i ≤ 2 ^ bits) :
    ∑ j in Finset.range g.num_nodes, interior_link g i j ≤ A_of (neg_degree bits g) g i i := by
  rw [A_of_diag]
  by_cases hu : g_boundary g i = -1
  · rw [if_pos hu]
    have h1 : ∑ j in Finset.range g.num_nodes, interior_link g i j ≤
        ((g.adjacent_count i : Nat) : ℚ) := by
      rw [adjacent_count_eq g i hu]
      refine Finset.sum_le_sum fun j _ => ?_
      have := boundary_link_nonneg g i j
      linarith
    have h2 : ((g.adjacent_count i : Nat) : ℚ) ≤ ((g.degree i : Nat) : ℚ) := by
      exact_mod_cast adjacent_count_le_degree g i
    have h3 := neg_degree_ge bits g i hd
    linarith
  · rw [if_neg hu]
    have : ∑ j in Finset.range g.num_nodes, interior_link g i j = 0 :=
      Finset.sum_eq_zero fun j _ => interior_link_constrained g i j hu
    rw [this]; norm_num

theorem link_pairs_split (g : Graph) (X : Nat → ℚ) (s : ℚ) :
    ∑ i in Finset.range g.num_nodes, ∑ j in Finset.range g.num_nodes,
        interior_link g i j * X i ^ 2 +
      s * ∑ i in Finset.range g.num_nodes, ∑ j in Finset.range g.num_nodes,
        interior_link g i j * (X i * X j) =
      ∑ i in Finset.range g.num_nodes, ∑ j in Finset.range g.num_nodes,
        if i < j then interior_link g i j * (X i ^ 2 + 2 * s * (X i * X j) + X j ^ 2)
        else 0 := by
  rw [← link_pairs g X s, Finset.mul_sum, ← Finset.sum_add_distrib]
  refine Finset.sum_congr rfl fun i _ => ?_
  rw [Finset.mul_sum, ← Finset.sum_add_distrib]
  refine Finset.sum_congr rfl fun j _ => ?_
  ring

/-- The quadratic form of `A` is `>= 0` on every graph whose degrees are at most
`2^(bits-1)`, whether or not edges are repeated. -/
theorem quad_form_wrapped_nonneg (bits : Nat) (g : Graph) (x : List ℚ)
    (hdeg : ∀ i, i < g.num_nodes → 2 * g.degree i ≤ 2 ^ bits) :
    0 ≤ quad_form (A_of (neg_degree bits g) g) g.num_nodes x := by
  rw [quad_form_split]
  have hpairs := link_pairs_split g (fun i => x.getD i 0) 1
  have hsq : ∀ i ∈ Finset.range g.num_nodes,
      0 ≤ (A_of (neg_degree bits g) g i i -
        ∑ j in Finset.range g.num_nodes, interior_link g i j) * x.getD i 0 ^ 2 := by
    intro i hi
    have := link_row_le_diag bits g i (hdeg i (Finset.mem_range.1 hi))
    exact mul_nonneg (by linarith) (by positivity)
  have hnn : 0 ≤ ∑ i in Finset.range g.num_nodes, ∑ j in Finset.range g.num_nodes,
      (if i < j then interior_link g i j *
        (x.getD i 0 ^ 2 + 2 * 1 * (x.getD i 0 * x.getD j 0) + x.getD j 0 ^ 2) else 0) := by
    refine Finset.sum_nonneg fun i _ => Finset.sum_nonneg fun j _ => ?_
    split_ifs
    · refine mul_nonneg (interior_link_nonneg g i j) ?_
      nlinarith [sq_nonneg (x.getD i 0 + x.getD j 0)]
    · exact le_refl 0
  have hsum := Finset.sum_nonneg hsq
  simp only [sub_mul, Finset.sum_sub_distrib, Finset.sum_mul] at hsum
  rw [← hpairs] at hnn
  linarith

theorem weighted_pairs (n : Nat) (w : Nat → Nat → ℚ) (hs : ∀ i j, w i j = w j i)
    (h0 : ∀ i, w i i = 0) (X : Nat → ℚ) (s : ℚ) :
    ∑ i in Finset.range n, ∑ j in Finset.range n, w i j * (X i ^ 2 + s * (X i * X j)) =
      ∑ i in Finset.range n, ∑ j in Finset.range n,
        if i < j then w i j * (X i ^ 2 + 2 * s * (X i * X j) + X j ^ 2) else 0 := by
  rw [sum_sym_pairs n (fun i j => w i j * (X i ^ 2 + s * (X i * X j)))
    (fun i => by simp [h0])]
  refine Finset.sum_congr rfl fun i _ => Finset.sum_congr rfl fun j _ => ?_
  split_ifs
  · rw [hs j i]; ring
  · rfl

theorem all_pairs (n : Nat) (Y : Nat → ℚ) :
    ∑ i in Finset.range n, ∑ j in Finset.range n,
        (if i < j then (Y i - Y j) ^ 2 else 0) =
      (n : ℚ) * ∑ i in Finset.range n, Y i ^ 2 - (∑ i in Finset.range n, Y i) ^ 2 := by
  have hsym := sum_sym_pairs n (fun i j => Y i ^ 2 - Y i * Y j) (fun i => by ring)
  have hrow : ∀ i ∈ Finset.range n,
      ∑ j in Finset.range n, (Y i ^ 2 - Y i * Y j) =
        (n : ℚ) * Y i ^ 2 - Y i * ∑ j in Finset.range n, Y j := by
    intro i _
    rw [Finset.sum_sub_distrib, Finset.sum_const, Finset.card_range, Finset.mul_sum]
    simp
  have hleft : ∑ i in Finset.range n, ∑ j in Finset.range n, (Y i ^ 2 - Y i * Y j) =
      (n : ℚ) * ∑ i in Finset.range n, Y i ^ 2 - (∑ i in Finset.range n, Y i) ^ 2 := by
    rw [Finset.sum_congr rfl hrow, Finset.sum_sub_distrib, ← Finset.mul_sum, ← Finset.sum_mul]
    ring
  rw [← hleft, hsym]
  refine Finset.sum_congr rfl fun i _ => Finset.sum_congr rfl fun j _ => ?_
  split_ifs
  · ring
  · rfl

theorem adjacency_link_symm (g : Graph) (i j : Nat) :
    adjacency_link g i j = adjacency_link g j i := by
  unfold adjacency_link
  rw [adjacent_symm]

theorem adjacency_link_self (g : Graph) (i : Nat) : adjacency_link g i i = 0 := by
  simp [adjacency_link, adjacent_irrefl]

theorem adjacency_link_le_one (g : Graph) (i j : Nat) :
    0 ≤ adjacency_link g i j ∧ adjacency_link g i j ≤ 1 := by
  unfold adjacency_link
  split_ifs <;> norm_num

theorem adjacent_count_sum (g : Graph) (i : Nat) :
    ((g.adjacent_count i : Nat) : ℚ) =
      ∑ j in Finset.range g.num_nodes, adjacency_link g i j := by
  rw [Graph.adjacent_count, length_filter_range]
  rfl

theorem adjacent_count_lt (g : Graph) (i : Nat) (hi : i < g.num_nodes) :
    g.adjacent_count i < g.num_nodes := by
  unfold Graph.adjacent_count
  have h : ((List.range g.num_nodes).filter (g.adjacent i)).length <
      (List.range g.num_nodes).length := by
    rw [List.length_filter_lt_length_iff_exists]
    exact ⟨i, List.mem_range.2 hi, by simp [adjacent_irrefl]⟩
  simpa using h

theorem adjacent_count_pos (g : Graph) (i j : Nat) (hj : j < g.num_nodes)
    (ha : g.adjacent i j = true) : 0 < g.adjacent_count i := by
  unfold Graph.adjacent_count
  exact List.length_pos_of_mem (List.mem_filter.2 ⟨List.mem_range.2 hj, ha⟩)

theorem link_term_active (g : Graph) (x : List ℚ) (i j : Nat) (hi : i < g.num_nodes)
    (hj : j < g.num_nodes) :
    interior_link g i j * (x.getD i 0 * x.getD j 0) =
      adjacency_link g i j * (active_part g x i * active_part g x j) := by
  unfold interior_link adjacency_link active_part
  by_cases ha : g.adjacent i j = true
  · have hdi : 0 < g.degree i :=
      lt_of_lt_of_le (adjacent_count_pos g i j hj ha) (adjacent_count_le_degree g i)
    have hdj : 0 < g.degree j :=
      lt_of_lt_of_le (adjacent_count_pos g j i hi (by rw [adjacent_symm]; exact ha))
        (adjacent_count_le_degree g j)
    by_cases hui : g_boundary g i = -1
    · by_cases huj : g_boundary g j = -1
      · simp [ha, hui, huj, hdi, hdj]
      · simp [ha, hui, huj]
    · simp [ha, hui]
  · simp [ha]

theorem neg_degree_nonneg (bits : Nat) (g : Graph) (i : Nat) : 0 ≤ neg_degree bits g i := by
  unfold neg_degree
  exact Nat.cast_nonneg _

theorem diag_term_active (bits : Nat) (g : Graph) (x : List ℚ)
    (hdeg : ∀ i, i < g.num_nodes → g.degree i = g.adjacent_count i)
    (hn : g.num_nodes ≤ 2 ^ bits) (i : Nat) (hi : i < g.num_nodes) :
    ((2 : ℚ) ^ bits - ∑ j in Finset.range g.num_nodes, adjacency_link g i j) *
        active_part g x i ^ 2 ≤
      A_of (neg_degree bits g) g i i * x.getD i 0 ^ 2 := by
  rw [A_of_diag]
  unfold active_part
  by_cases hu : g_boundary g i = -1
  · by_cases hd : 0 < g.degree i
    · rw [if_pos hu, if_pos ⟨hu, hd⟩, ← adjacent_count_sum, ← hdeg i hi]
      have hlt : g.degree i < 2 ^ bits := by
        have := adjacent_count_lt g i hi
        rw [← hdeg i hi] at this
        omega
      have hmod : (2 ^ bits - g.degree i % 2 ^ bits) % 2 ^ bits = 2 ^ bits - g.degree i := by
        rw [Nat.mod_eq_of_lt hlt, Nat.mod_eq_of_lt (by omega)]
      have hval : neg_degree bits g i = (2 : ℚ) ^ bits - ((g.degree i : Nat) : ℚ) := by
        rw [neg_degree, hmod, Nat.cast_sub (le_of_lt hlt)]
        norm_num
      rw [hval]
    · rw [if_pos hu, if_neg (fun h => hd h.2)]
      have := neg_degree_nonneg bits g i
      have h2 : 0 ≤ neg_degree bits g i * x.getD i 0 ^ 2 := mul_nonneg this (by positivity)
      simpa using h2
  · rw [if_neg hu, if_neg (fun h => hu h.1)]
    have h2 : (0 : ℚ) ≤ 1 * x.getD i 0 ^ 2 := by positivity
    simpa using h2

theorem laplacian_form_le (g : Graph) (Y : Nat → ℚ) :
    ∑ i in Finset.range g.num_nodes, ∑ j in Finset.range g.num_nodes,
        adjacency_link g i j * (Y i ^ 2 + (-1) * (Y i * Y j)) ≤
      (g.num_nodes : ℚ) * ∑ i in Finset.range g.num_nodes, Y i ^ 2 := by
  rw [weighted_pairs g.num_nodes (adjacency_link g) (adjacency_link_symm g)
    (adjacency_link_self g) Y (-1)]
  have hall := all_pairs g.num_nodes Y
  have hle : ∑ i in Finset.range g.num_nodes, ∑ j in Finset.range g.num_nodes,
      (if i < j then adjacency_link g i j * (Y i ^ 2 + 2 * (-1) * (Y i * Y j) + Y j ^ 2)
        else 0) ≤
      ∑ i in Finset.range g.num_nodes, ∑ j in Finset.range g.num_nodes,
        (if i < j then (Y i - Y j) ^ 2 else 0) := by
    refine Finset.sum_le_sum fun i _ => Finset.sum_le_sum fun j _ => ?_
    split_ifs
    · have h1 := adjacency_link_le_one g i j
      have h2 : Y i ^ 2 + 2 * (-1) * (Y i * Y j) + Y j ^ 2 = (Y i - Y j) ^ 2 := by ring
      rw [h2]
      have h3 : 0 ≤ (Y i - Y j) ^ 2 := by positivity
      nlinarith [mul_nonneg (sub_nonneg.2 h1.2) h3]
    · exact le_refl 0
  have hsq : 0 ≤ (∑ i in Finset.range g.num_nodes, Y i) ^ 2 := by positivity
  linarith

/-- The quadratic form of `A` is `>= 0` on every graph in which `degree(i)` is the
number of nodes adjacent to `i` and whose node count is at most `2^bits`. -/
theorem quad_form_wrapped_nonneg_simple (bits : Nat) (g : Graph) (x : List ℚ)
    (hdeg : ∀ i, i < g.num_nodes → g.degree i = g.adjacent_count i)
    (hn : g.num_nodes ≤ 2 ^ bits) :
    0 ≤ quad_form (A_of (neg_degree bits g) g) g.num_nodes x := by
  rw [quad_form_split]
  have hoff : ∑ i in Finset.range g.num_nodes, ∑ j in Finset.range g.num_nodes,
      interior_link g i j * (x.getD i 0 * x.getD j 0) =
      ∑ i in Finset.range g.num_nodes, ∑ j in Finset.range g.num_nodes,
        adjacency_link g i j * (active_part g x i * active_part g x j) :=
    Finset.sum_congr rfl fun i hi => Finset.sum_congr rfl fun j hj =>
      link_term_active g x i j (Finset.mem_range.1 hi) (Finset.mem_range.1 hj)
  have hdiag : ∑ i in Finset.range g.num_nodes,
      ((2 : ℚ) ^ bits - ∑ j in Finset.range g.num_nodes, adjacency_link g i j) *
        active_part g x i ^ 2 ≤
      ∑ i in Finset.range g.num_nodes, A_of (neg_degree bits g) g i i * x.getD i 0 ^ 2 :=
    Finset.sum_le_sum fun i hi => diag_term_active bits g x hdeg hn i (Finset.mem_range.1 hi)
  have hlap := laplacian_form_le g (active_part g x)
  have hexp : ∑ i in Finset.range g.num_nodes, ∑ j in Finset.range g.num_nodes,
      adjacency_link g i j *
        (active_part g x i ^ 2 + (-1) * (active_part g x i * active_part g x j)) =
      ∑ i in Finset.range g.num_nodes,
        (∑ j in Finset.range g.num_nodes, adjacency_link g i j) * active_part g x i ^ 2 -
      ∑ i in Finset.range g.num_nodes, ∑ j in Finset.range g.num_nodes,
        adjacency_link g i j * (active_part g x i * active_part g x j) := by
    rw [← Finset.sum_sub_distrib]
    refine Finset.sum_congr rfl fun i _ => ?_
    rw [Finset.sum_mul, ← Finset.sum_sub_distrib]
    refine Finset.sum_congr rfl fun j _ => ?_
    ring
  have hsplit : ∑ i in Finset.range g.num_nodes,
      ((2 : ℚ) ^ bits - ∑ j in Finset.range g.num_nodes, adjacency_link g i j) *
        active_part g x i ^ 2 =
      (2 : ℚ) ^ bits * ∑ i in Finset.range g.num_nodes, active_part g x i ^ 2 -
      ∑ i in Finset.range g.num_nodes,
        (∑ j in Finset.range g.num_nodes, adjacency_link g i j) * active_part g x i ^ 2 := by
    rw [Finset.mul_sum, ← Finset.sum_sub_distrib]
    refine Finset.sum_congr rfl fun i _ => ?_
    ring
  have hsq : 0 ≤ ∑ i in Finset.range g.num_nodes, active_part g x i ^ 2 :=
    Finset.sum_nonneg fun i _ => by positivity
  have hcast : (g.num_nodes : ℚ) ≤ (2 : ℚ) ^ bits := by exact_mod_cast hn
  have hmul := mul_le_mul_of_nonneg_right hcast hsq
  rw [hoff]
  linarith

theorem A_of_symm (nd : Nat → ℚ) (g : Graph) (i j : Nat) :
    A_of nd g i j = A_of nd g j i := by
  by_cases hij : i = j
  · subst hij; rfl
  · rw [A_of_offdiag_link nd g i j hij, A_of_offdiag_link nd g j i (fun h => hij h.symm),
      interior_link_symm]

/-- C17: the matrix `A` is symmetric and positive semidefinite: for every
vector `x` the sum over all nodes `i`, `j` of `x[i]*A(i,j)*x[j]` is `>= 0`, on
every graph that the program can hold: `degree(i)` is the number of nodes
adjacent to `i` (no repeated edge, no self-loop) and the node count is within
the range `2^bits` of the unsigned `size_type`. -/
theorem A_positive_semidefinite (bits : Nat) (g : Graph) (x : List ℚ)
    (hdeg : ∀ i, i < g.num_nodes → g.degree i = g.adjacent_count i)
    (hn : g.num_nodes ≤ 2 ^ bits) :
    (∀ i j, A bits g i j = A bits g j i) ∧
      0 ≤ quad_form (A bits g) (get_dim g) x :=
  ⟨fun i j => A_of_symm (neg_degree bits g) g i j,
    quad_form_wrapped_nonneg_simple bits g x hdeg hn⟩

/-- C17, at a concrete input: `mesh_pair` with a 32-bit `size_type` and
`x = [1, -1]`. -/
theorem A_positive_semidefinite_witness :
    ((∀ i, i < mesh_pair.num_nodes → mesh_pair.degree i = mesh_pair.adjacent_count i) ∧
      mesh_pair.num_nodes ≤ 2 ^ 32) ∧
    ((∀ i j, A 32 mesh_pair i j = A 32 mesh_pair j i) ∧
      0 ≤ quad_form (A 32 mesh_pair) (get_dim mesh_pair) [1, -1]) :=
  ⟨⟨by
      intro i hi
      have hn : mesh_pair.num_nodes = 2 := rfl
      rw [hn] at hi
      interval_cases i <;> rfl,
    by
      have hn : mesh_pair.num_nodes = 2 := rfl
      rw [hn]; norm_num⟩,
    A_positive_semidefinite 32 mesh_pair [1, -1]
      (by
        intro i hi
        have hn : mesh_pair.num_nodes = 2 := rfl
        rw [hn] at hi
        interval_cases i <;> rfl)
      (by
        have hn : mesh_pair.num_nodes = 2 := rfl
        rw [hn]; norm_num)⟩

/-! ## The running total kept by `mult` -/

theorem incident_ne (g : Graph) (hl : g.no_loops) (i j : Nat) (hj : j ∈ g.incident i) :
    j ≠ i := by
  simp only [Graph.incident, List.mem_filterMap] at hj
  obtain ⟨e, he, h⟩ := hj
  have hne := hl e he
  split_ifs at h with h1 h2
  · simp only [Option.some.injEq] at h
    rw [← h, ← h1]; exact fun hh => hne hh.symm
  · simp only [Option.some.injEq] at h
    rw [← h, ← h2]; exact hne

theorem A_offdiag_bits (bits bits2 : Nat) (g : Graph) (i j : Nat) (hij : i ≠ j) :
    A bits g i j = A bits2 g i j := by
  rw [A_of_neg_degree, A_of_neg_degree, A_of_offdiag_link _ g i j hij,
    A_of_offdiag_link _ g i j hij]

theorem edge_sum_bits (bits bits2 : Nat) (g : Graph) (hl : g.no_loops) (v : List ℚ)
    (i : Nat) : edge_sum bits g v i = edge_sum bits2 g v i := by
  unfold edge_sum
  congr 1
  refine List.map_congr_left fun j hj => ?_
  rw [A_offdiag_bits bits bits2 g i j (fun h => incident_ne g hl i j hj h.symm)]

theorem running_sum_bits (bits bits2 : Nat) (g : Graph) (hl : g.no_loops) (v : List ℚ)
    (k : Nat) : running_sum bits g v k = running_sum bits2 g v k := by
  unfold running_sum
  congr 1
  exact List.map_congr_left fun i _ => edge_sum_bits bits bits2 g hl v i

theorem list_eq_of_getD (r s : List ℚ) (hlen : r.length = s.length)
    (h : ∀ k, k < r.length → r.getD k 0 = s.getD k 0) : r = s := by
  apply List.ext_getElem hlen
  intro k h1 h2
  have := h k h1
  simpa [List.getD, List.getElem?_eq_getElem h1, List.getElem?_eq_getElem h2] using this

/-- C18: `mult` keeps one accumulator for the whole call.  On a well-formed
graph without self-loops, for vectors of length `get_dim()`, the overwrite-mode
call returns, and the value written for node `k` is the running total, over the
nodes `0..k` in node-iteration order, of the sum over the incident edges, with
other endpoint `j`, of `A(i,j)*v[j]`; each entry is the previous one plus the
edge sum of its own node; every entry read is off the diagonal, and the result
does not depend on the value of the diagonal entries. -/
theorem mult_running_total (bits : Nat) (g : Graph) (v w : List ℚ) (hwf : g.wf)
    (hl : g.no_loops) (hv : v.length = get_dim g) (hw : w.length = get_dim g) :
    ∃ r, mult bits g v w .assign_sum = .ok r ∧ r.length = get_dim g ∧
      (∀ k, k < get_dim g → r.getD k 0 =
        ((List.range (k + 1)).map fun i =>
          ((g.incident i).map fun j => A bits g i j * v.getD j 0).sum).sum) ∧
      (∀ k, k + 1 < get_dim g → r.getD (k + 1) 0 =
        r.getD k 0 + ((g.incident (k + 1)).map fun j => A bits g (k + 1) j * v.getD j 0).sum) ∧
      (∀ i j, j ∈ g.incident i → j ≠ i) ∧
      ∀ bits2, mult bits2 g v w .assign_sum = .ok r := by
  obtain ⟨r, hr, hlen, hent⟩ := mult_ok bits g v w .assign_sum hwf hv hw
  refine ⟨r, hr, hlen, ?_, ?_, incident_ne g hl, ?_⟩
  · intro k hk
    rw [hent k hk]
    rfl
  · intro k hk
    rw [hent (k + 1) hk, hent k (by omega)]
    simp only [Assign.apply]
    rw [running_sum_succ bits g v (k + 1)]
    rfl
  · intro bits2
    obtain ⟨r2, hr2, hlen2, hent2⟩ := mult_ok bits2 g v w .assign_sum hwf hv hw
    rw [hr2]
    congr 1
    apply list_eq_of_getD r2 r (by rw [hlen2, hlen])
    intro k hk
    rw [hlen2] at hk
    rw [hent2 k hk, hent k hk]
    simp only [Assign.apply]
    exact running_sum_bits bits2 bits g hl v (k + 1)

/-- C18, at a concrete input: `mesh_path` with `v = [0, 1, 0]`. -/
theorem mult_running_total_witness :
    ∃ r, mult 32 mesh_path [0, 1, 0] [0, 0, 0] .assign_sum = .ok r ∧
      r.length = get_dim mesh_path ∧
      (∀ k, k < get_dim mesh_path → r.getD k 0 =
        ((List.range (k + 1)).map fun i =>
          ((mesh_path.incident i).map fun j =>
            A 32 mesh_path i j * ([0, 1, 0] : List ℚ).getD j 0).sum).sum) ∧
      (∀ k, k + 1 < get_dim mesh_path → r.getD (k + 1) 0 =
        r.getD k 0 + ((mesh_path.incident (k + 1)).map fun j =>
          A 32 mesh_path (k + 1) j * ([0, 1, 0] : List ℚ).getD j 0).sum) ∧
      (∀ i j, j ∈ mesh_path.incident i → j ≠ i) ∧
      ∀ bits2, mult bits2 mesh_path [0, 1, 0] [0, 0, 0] .assign_sum = .ok r :=
  mult_running_total 32 mesh_path [0, 1, 0] [0, 0, 0]
    (by simp [Graph.wf, mesh_path, Graph.num_nodes])
    (by simp [Graph.no_loops, mesh_path]) rfl rfl

/-! ## The setup check of `main` and the edges cut by `remove_box` -/

end Poisson
